import Mathlib

/-!
Package go-powershell: the command/response framing protocol of `shell.go`.

A shallow embedding of `src/shell.go` and proofs about it.

* Go `[]byte` and Go `string` are both byte sequences: `Bytes`.
* Go `int` is `Int` (`bytes.IndexByte` returns `-1` when the byte is absent).
* Go `error` values are the inductive `Error`; `nil` is `none`.
* The functions of the Go standard library that `shell.go` calls are modelled and say so in
  their doc comments: `bytes.IndexByte`, `bytes.HasPrefix` and `bytes.Join` from their
  documentation; `bufio.Scanner` from its source (`bufio/scan.go`, Go 1.22 and later), buffer
  handling included, because `streamReader` keeps slices of the scanner's buffer;
  `sync.WaitGroup` as the count of `Done` calls that `Wait` waits for.
* The collaborators of the session (`utils.CreateRandomString`, the process backend and its
  pipes) are parameters: what they return is an argument of the function that calls them.
* A call that may block or panic returns a `Run`; effects on the outside (bytes handed to the
  input pipe, stream readers started, `Done` calls) are returned in a trace.
-/

set_option autoImplicit false

namespace Powershell

/-! ## Data model -/

/-- Byte sequences: Go `[]byte`, and Go `string` (a read-only byte sequence). -/
abbrev Bytes := List UInt8

/-- The bytes of a string literal of the source (its UTF-8 encoding). -/
def lit (s : String) : Bytes := s.toUTF8.data.toList

/-- The newline byte, written `'\n'` in the source. -/
def nl : UInt8 := 10

/-- Go `error` values that occur in `shell.go` and in the `bufio.Scanner` it drives. -/
inductive Error where
  /-- Sentinel `bufio.ErrFinalToken`. -/
  | ErrFinalToken
  /-- Sentinel `io.EOF`. -/
  | EOF
  /-- Sentinel `bufio.ErrTooLong`. -/
  | ErrTooLong
  /-- Sentinel `bufio.ErrNegativeAdvance`. -/
  | ErrNegativeAdvance
  /-- Sentinel `bufio.ErrAdvanceTooFar`. -/
  | ErrAdvanceTooFar
  /-- Sentinel `io.ErrNoProgress`. -/
  | ErrNoProgress
  /-- Any other error a collaborator (a pipe read or write) reports. -/
  | Other (msg : Bytes)
  /-- Constructor `errors.New(msg)`. -/
  | New (msg : Bytes)
  /-- Constructor `errors.Annotate(cause, msg)`. -/
  | Annotate (cause : Error) (msg : Bytes)
  deriving DecidableEq

/-- What a `bufio.SplitFunc` returns: `(advance int, token []byte, err error)`. -/
structure SplitResult where
  advance : Int
  token : Option Bytes
  err : Option Error
  deriving DecidableEq

/-- Go type `bufio.SplitFunc`: `func(data []byte, atEOF bool) (advance, token, err)`. -/
abbrev SplitFunc := Bytes → Bool → SplitResult

/-! ## Library functions used by the splitter -/

/-- Library function `bytes.IndexByte(b, c)`: the index of the first instance of `c` in `b`,
or `-1` if `c` is not present in `b`. -/
def IndexByte (b : Bytes) (c : UInt8) : Int :=
  if c ∈ b then (b.indexOf c : Int) else -1

/-- Library function `bytes.HasPrefix(s, prefix)`: whether `s` begins with `prefix`. -/
def HasPrefix (s pre : Bytes) : Bool := pre.isPrefixOf s

/-! ## `onBoundary` (shell.go, lines 117-135) -/

/-- The split function returned by `onBoundary(boundary)`. -/
def onBoundary (boundary : Bytes) : SplitFunc := fun data atEOF =>
  if atEOF && data.length == 0 then
    ⟨0, none, none⟩
  else
    let i := IndexByte data nl
    if i ≥ 0 then
      if HasPrefix data boundary then
        ⟨0, none, some Error.ErrFinalToken⟩
      else
        ⟨i + 1, some (data.take i.toNat), none⟩
    else if atEOF then
      ⟨data.length, some data, none⟩
    else
      ⟨0, none, none⟩

/-! ## Applying a split function repeatedly to a stream -/

/-- What repeated application of a split function produced: the tokens emitted, the number of
bytes consumed, and the result of the call at which the loop stopped (`none` when the step budget
ran out first). -/
structure Scanned where
  tokens : List Bytes
  consumed : Nat
  last : Option SplitResult
  deriving DecidableEq

/-- Apply `split` to `data`, emit the token it returns, drop the `advance` bytes it consumed, and
apply it again to what is left.  The loop stops at the first call that returns an error or that
neither emits a token nor advances.  The first argument bounds the number of calls. -/
def applySplit (split : SplitFunc) (atEOF : Bool) : Nat → Bytes → Scanned
  | 0, _ => ⟨[], 0, none⟩
  | fuel + 1, data =>
    let r := split data atEOF
    if r.err.isSome then
      ⟨if r.err = some Error.ErrFinalToken then r.token.toList else [], 0, some r⟩
    else if r.token.isNone && decide (r.advance ≤ 0) then
      ⟨[], 0, some r⟩
    else
      let rest := applySplit split atEOF fuel (data.drop r.advance.toNat)
      ⟨r.token.toList ++ rest.tokens, r.advance.toNat + rest.consumed, rest.last⟩

/-- The stream `L1 \n L2 \n ... Ln \n`: every line followed by a newline byte. -/
def terminated : List Bytes → Bytes
  | [] => []
  | l :: ls => l ++ nl :: terminated ls

/-- The lines of a stream, in the spec's words: the stream cut at each newline byte with the
newline removed, and no line for an empty remainder after the final newline.  The first argument
is the line collected so far. -/
def linesFrom : Bytes → Bytes → List Bytes
  | cur, [] => if cur = [] then [] else [cur]
  | cur, b :: bs => if b = nl then cur :: linesFrom [] bs else linesFrom (cur ++ [b]) bs

/-- The lines of a stream (see `linesFrom`). -/
def linesOf (s : Bytes) : List Bytes := linesFrom [] s

/-- The first line of a buffer, taken up to and including its newline byte. -/
def firstLine (data : Bytes) : Bytes := data.take (data.indexOf nl + 1)


/-! ## Pipes -/

/-- How a pipe behaves once the data in it have been read. -/
inductive Closing where
  /-- The write end is closed: `Read` returns `io.EOF`. -/
  | eof
  /-- Reading fails: `Read` returns the error. -/
  | failed (e : Error)
  /-- The write end stays open and silent: `Read` never returns. -/
  | blocks
  deriving DecidableEq

/-- An `io.Reader` on a pipe, seen from its consumer: the batches of bytes that arrive in the
pipe, in order, and how the pipe behaves after them.  A `Read(p)` takes the bytes of the first
batch, at most `len(p)` of them, and leaves the rest of the batch for the next `Read`. -/
structure Reader where
  chunks : List Bytes
  closing : Closing
  deriving DecidableEq

/-- How a call that may block or panic ends.  `unfinished` is the verdict of a loop whose step
budget ran out. -/
inductive Run (α : Type) where
  | returned (a : α)
  | blocked
  | panicked
  | unfinished
  deriving DecidableEq

/-! ## `bufio.Scanner` (Go standard library, `bufio/scan.go`, Go 1.22 and later)

The scanner is library code, not code of this repository; it is modelled from its source because
`streamReader` keeps the slices that `scanner.Bytes()` returns, and those slices point into the
scanner's buffer. -/

/-- Constant `bufio.MaxScanTokenSize`. -/
def maxTokenSize : Nat := 64 * 1024

/-- Constant `startBufSize` of `bufio`. -/
def startBufSize : Nat := 4096

/-- Constant `maxConsecutiveEmptyReads` of `bufio`. -/
def maxConsecutiveEmptyReads : Nat := 100

/-- Largest Go `int` on a 64-bit platform. -/
def maxInt : Nat := 2 ^ 63 - 1

/-- A Go slice into one of the scanner's backing arrays: which array (in order of allocation),
the offset of the first byte and the length. -/
structure Slice where
  gen : Nat
  off : Nat
  len : Nat
  deriving DecidableEq

/-- State of a `bufio.Scanner`.  `buf` holds the part of the backing array `s.buf` that has been
written so far (the scanner never reads past it) and `cap` is `len(s.buf)`; `retired` are the
backing arrays that were replaced when the buffer grew, oldest first; `pipe` and `closing` are
the reader `s.r`. -/
structure Scanner where
  pipe : List Bytes
  closing : Closing
  retired : List Bytes
  buf : Bytes
  cap : Nat
  start : Nat
  end_ : Nat
  err : Option Error
  empties : Nat
  deriving DecidableEq

/-- Constructor `bufio.NewScanner(r)`. -/
def NewScanner (r : Reader) : Scanner :=
  { pipe := r.chunks, closing := r.closing, retired := [], buf := [], cap := 0,
    start := 0, end_ := 0, err := none, empties := 0 }

/-- The unconsumed bytes `s.buf[s.start:s.end]`. -/
def Scanner.pending (s : Scanner) : Bytes := (s.buf.drop s.start).take (s.end_ - s.start)

/-- Method `setErr`: records the first non-EOF error. -/
def Scanner.setErr (s : Scanner) (e : Error) : Scanner :=
  if s.err = none ∨ s.err = some Error.EOF then { s with err := some e } else s

/-- Method `Err`: the first non-EOF error the scanner met. -/
def Scanner.Err (s : Scanner) : Option Error :=
  if s.err = some Error.EOF then none else s.err

/-- The bytes a slice denotes in the scanner's present memory. -/
def Scanner.bytesAt (s : Scanner) (sl : Slice) : Bytes :=
  (((s.retired ++ [s.buf]).getD sl.gen []).drop sl.off).take sl.len

/-- The read loop at the end of `Scan`: `Read` is called with room for `room` bytes until it
returns data or an error, giving up after `maxConsecutiveEmptyReads` empty reads.  Returns the
bytes read, the error to record, and the pipe left; `none` when `Read` never returns. -/
def readLoop (room : Nat) (closing : Closing) : Nat → List Bytes →
    Option (Bytes × Option Error × List Bytes)
  | _, [] =>
    match closing with
    | Closing.eof => some ([], some Error.EOF, [])
    | Closing.failed e => some ([], some e, [])
    | Closing.blocks => none
  | loop, c :: cs =>
    if c = [] then
      if loop + 1 > maxConsecutiveEmptyReads then some ([], some Error.ErrNoProgress, cs)
      else readLoop room closing (loop + 1) cs
    else if c.length ≤ room then some (c, none, cs)
    else some (c.take room, none, c.drop room :: cs)

/-- What one pass through the `for` loop of `Scan` does. -/
inductive Step where
  /-- `Scan` returns `true`; `scanner.Bytes()` is the slice. -/
  | token (s : Scanner) (tok : Slice)
  /-- Scanning is over: `Scan` returns `false`, after a last `true` for a final token if the
  split function returned one with `ErrFinalToken` (a nil final token is not delivered). -/
  | stop (s : Scanner) (tok : Option Slice)
  /-- The loop goes round again. -/
  | again (s : Scanner)
  /-- A `Read` never returns. -/
  | blocked
  /-- The scanner panics. -/
  | panicked
  deriving DecidableEq

/-- In `Scan`: "First, shift data to beginning of buffer if there's lots of empty space or
space is needed": `copy(s.buf, s.buf[s.start:s.end])`. -/
def Scanner.shift (s : Scanner) : Scanner :=
  if s.start > 0 && (s.end_ == s.cap || s.start > s.cap / 2) then
    { s with buf := s.pending ++ s.buf.drop s.pending.length,
             end_ := s.end_ - s.start, start := 0 }
  else s

/-- In `Scan`: "Is the buffer full? If so, resize": a new backing array of twice the size, at
most `maxTokenSize`, takes over the pending bytes; the old array is left as it is. -/
def Scanner.grow (s : Scanner) : Scanner :=
  if s.end_ == s.cap then
    { s with retired := s.retired ++ [s.buf], buf := s.pending,
             cap := min (if s.cap * 2 = 0 then startBufSize else s.cap * 2) maxTokenSize,
             end_ := s.end_ - s.start, start := 0 }
  else s

/-- In `Scan`: "Finally we can read some input": the read loop stores what it read at
`s.buf[s.end:]` and records the error, if any. -/
def Scanner.read (s : Scanner) : Step :=
  match readLoop (s.cap - s.end_) s.closing 0 s.pipe with
  | none => Step.blocked
  | some (bytes, err, pipe) =>
    let s1 : Scanner :=
      { s with buf := s.buf.take s.end_ ++ bytes ++ s.buf.drop (s.end_ + bytes.length),
               end_ := s.end_ + bytes.length, pipe := pipe }
    match err with
    | some e => Step.again (s1.setErr e)
    | none => Step.again { s1 with empties := 0 }

/-- The part of `Scan` after "Must read more data": shift the pending bytes to the front of the
buffer if space is needed, give up with `ErrTooLong` if the buffer is full and cannot grow, grow
it if it is full, then read. -/
def Scanner.fill (s : Scanner) : Step :=
  if s.shift.end_ == s.shift.cap && (s.shift.cap ≥ maxTokenSize || s.shift.cap > maxInt / 2) then
    Step.stop (s.shift.setErr Error.ErrTooLong) none
  else s.shift.grow.read

/-- The end of a pass that produced no token: stop if the input is finished, else read. -/
def Scanner.more (s : Scanner) : Step :=
  if s.err.isSome then Step.stop { s with start := 0, end_ := 0 } none else s.fill

/-- One pass through the `for` loop of `Scan`, for a scanner whose split function is `split`.
A token is recorded as the slice `data[0:len(token)]` of the buffer, which is what the split
function of `onBoundary` returns. -/
def Scanner.pass (split : SplitFunc) (s : Scanner) : Step :=
  if s.end_ > s.start || s.err.isSome then
    let r := split s.pending s.err.isSome
    match r.err with
    | some e =>
      if e = Error.ErrFinalToken then
        Step.stop s (r.token.map fun t => ⟨s.retired.length, s.start, t.length⟩)
      else Step.stop (s.setErr e) none
    | none =>
      if r.advance < 0 then Step.stop (s.setErr Error.ErrNegativeAdvance) none
      else if r.advance > ((s.end_ - s.start : Nat) : Int) then
        Step.stop (s.setErr Error.ErrAdvanceTooFar) none
      else
        let s1 : Scanner := { s with start := s.start + r.advance.toNat }
        match r.token with
        | some t =>
          if s.err.isNone || decide (r.advance > 0) then
            Step.token { s1 with empties := 0 } ⟨s.retired.length, s.start, t.length⟩
          else if s.empties + 1 > maxConsecutiveEmptyReads then Step.panicked
          else Step.token { s1 with empties := s.empties + 1 } ⟨s.retired.length, s.start, t.length⟩
        | none => s1.more
  else s.more

/-- The loop `for scanner.Scan() { lines = append(lines, scanner.Bytes()) }` of `streamReader`:
the slices collected and the scanner when `Scan` returns `false`.  The first argument bounds the
number of passes. -/
def scanLines (split : SplitFunc) : Nat → Scanner → List Slice → Run (List Slice × Scanner)
  | 0, _, _ => Run.unfinished
  | fuel + 1, s, lines =>
    match s.pass split with
    | Step.token s1 tok => scanLines split fuel s1 (lines ++ [tok])
    | Step.again s1 => scanLines split fuel s1 lines
    | Step.stop s1 tok => Run.returned (lines ++ tok.toList, s1)
    | Step.blocked => Run.blocked
    | Step.panicked => Run.panicked

/-- Library function `bytes.Join(s, sep)`: the elements of `s` with `sep` between them. -/
def Join (s : List Bytes) (sep : Bytes) : Bytes := sep.intercalate s

/-! ## `streamReader` (shell.go, lines 92-111) -/

/-- What a call of `streamReader` did: the string it stored through `buffer` (if it stored
one), how many times it called `signal.Done()`, what it printed to `os.Stderr`, and the error it
returned. -/
structure ReaderExit where
  buffer : Option Bytes
  done : Nat
  logged : Option Error
  err : Option Error
  deriving DecidableEq

/-- A budget of passes that no scan of the pipe with the split function of `onBoundary`
exhausts (`streamReader_finishes`): every pass that does not end the scan takes bytes or an
empty batch from the pipe, takes bytes from the buffer, or records the end of input. -/
def passBudget (stream : Reader) : Nat :=
  2 * stream.chunks.flatten.length + stream.chunks.length + 4

/-- Function `streamReader(stream, boundary, buffer, signal, debug)`.  The receiver and `debug`
are not used by the body. -/
def streamReader (stream : Reader) (boundary : Bytes) : Run ReaderExit :=
  match scanLines (onBoundary boundary) (passBudget stream) (NewScanner stream) [] with
  | Run.returned (lines, scanner) =>
    match scanner.Err with
    | some err => Run.returned ⟨none, 0, some err, some err⟩
    | none => Run.returned ⟨some (Join (lines.map scanner.bytesAt) [nl]), 1, none, none⟩
  | Run.blocked => Run.blocked
  | Run.panicked => Run.panicked
  | Run.unfinished => Run.unfinished

/-! ## The session (shell.go, lines 18-90 and 113-115) -/

/-- Constant `newline`. -/
def newline : Bytes := lit "\r\n"

/-- An interface value held by the session (`backend.Waiter`, `io.Writer`, `io.Reader`): a
non-nil value is told apart by an identifier. -/
abbrev Endpoint := Nat

/-- The struct `shell`; `nil` fields are `none`. -/
structure shell where
  handle : Option Endpoint
  stdin : Option Endpoint
  stdout : Option Endpoint
  stderr : Option Endpoint
  debugerr : Bytes
  debugout : Bytes
  deriving DecidableEq

/-- Function `createBoundary`; the argument is `utils.CreateRandomString`, taken at the call. -/
def createBoundary (CreateRandomString : Nat → Bytes) : Bytes :=
  lit "$gorilla" ++ CreateRandomString 12 ++ lit "$"

/-- Whether a byte is an ASCII letter or digit. -/
def isAlnum (b : UInt8) : Bool :=
  (48 ≤ b && b ≤ 57) || (65 ≤ b && b ≤ 90) || (97 ≤ b && b ≤ 122)

/-- What the collaborators of one `Execute` call do: the strings the two calls of
`utils.CreateRandomString` return, the error `s.stdin.Write` returns, and the pipes behind
`s.stdout` and `s.stderr`. -/
structure ExecEnv where
  random₁ : Nat → Bytes
  random₂ : Nat → Bytes
  writeErr : Option Error
  outPipe : Reader
  errPipe : Reader

/-- The return values `(string, string, error)` of `Execute`. -/
structure ExecResult where
  sout : Bytes
  serr : Bytes
  err : Option Error
  deriving DecidableEq

/-- What a call of `Execute` did: how it ended, the session afterwards, the buffers it handed
to `s.stdin.Write`, and how many stream readers it started. -/
structure ExecTrace where
  outcome : Run ExecResult
  session : shell
  written : List Bytes
  readers : Nat
  deriving DecidableEq

/-- The augmented command `fmt.Sprintf("%s; echo '%s'; [Console]::Error.WriteLine('%s')%s",
cmd, outBoundary, errBoundary, newline)`. -/
def fullCommand (cmd outBoundary errBoundary : Bytes) : Bytes :=
  cmd ++ lit "; echo '" ++ outBoundary ++ lit "'; [Console]::Error.WriteLine('" ++ errBoundary ++
    lit "')" ++ newline

/-- The join `waiter.Wait()` after `waiter.Add(2)` and the two `go s.streamReader(...)`, followed
by `return sout, serr, nil`: `Wait` returns once `Done` has been called twice. -/
def joinReaders (out err : Run ReaderExit) : Run ExecResult :=
  match out, err with
  | Run.panicked, _ => Run.panicked
  | _, Run.panicked => Run.panicked
  | Run.unfinished, _ => Run.unfinished
  | _, Run.unfinished => Run.unfinished
  | Run.returned o, Run.returned e =>
    if o.done + e.done ≥ 2 then Run.returned ⟨o.buffer.getD [], e.buffer.getD [], none⟩
    else Run.blocked
  | _, _ => Run.blocked

/-- Method `Execute`. -/
def Execute (s : shell) (env : ExecEnv) (cmd : Bytes) : ExecTrace :=
  match s.handle with
  | none =>
    ⟨Run.returned ⟨[], [], some (Error.Annotate (Error.New cmd)
      (lit "Cannot execute commands on closed shells."))⟩, s, [], 0⟩
  | some _ =>
    let outBoundary := createBoundary env.random₁
    let errBoundary := createBoundary env.random₂
    let full := fullCommand cmd outBoundary errBoundary
    match s.stdin with
    | none => ⟨Run.panicked, s, [], 0⟩
    | some _ =>
      match env.writeErr with
      | some err =>
        ⟨Run.returned ⟨[], [], some (Error.Annotate (Error.Annotate err cmd)
          (lit "Could not send PowerShell command"))⟩, s, [full], 0⟩
      | none =>
        let out := if s.stdout.isSome then streamReader env.outPipe outBoundary else Run.panicked
        let err := if s.stderr.isSome then streamReader env.errPipe errBoundary else Run.panicked
        ⟨joinReaders out err, s, [full], 2⟩

/-- What the collaborators of one `Exit` call do: whether `s.stdin` is an `io.Closer`, and
whether `s.handle.Wait()` returns. -/
structure ExitEnv where
  closable : Bool
  waitReturns : Bool

/-- What a call of `Exit` did: how it ended (with the session afterwards), the buffers it handed
to `s.stdin.Write`, and whether it closed `s.stdin`. -/
structure ExitTrace where
  outcome : Run shell
  written : List Bytes
  closed : Bool
  deriving DecidableEq

/-- Method `Exit`. -/
def Exit (s : shell) (env : ExitEnv) : ExitTrace :=
  match s.stdin with
  | none => ⟨Run.panicked, [], false⟩
  | some _ =>
    match s.handle with
    | none => ⟨Run.panicked, [lit "exit" ++ newline], env.closable⟩
    | some _ =>
      if env.waitReturns then
        ⟨Run.returned { s with handle := none, stdin := none, stdout := none, stderr := none },
          [lit "exit" ++ newline], env.closable⟩
      else ⟨Run.blocked, [lit "exit" ++ newline], env.closable⟩

/-! ## Vocabulary of the statements about `streamReader` -/

/-- The carriage-return byte, written `'\r'`. -/
def cr : UInt8 := 13

/-- A byte string with every CRLF replaced by LF. -/
def crlfToLf : Bytes → Bytes
  | [] => []
  | b :: rest => if b = cr ∧ rest.head? = some nl then crlfToLf rest else b :: crlfToLf rest

/-- A random-string collaborator that returns `n` copies of one byte. -/
def letters (b : UInt8) : Nat → Bytes := fun n => List.replicate n b

/-- The scanner of `streamReader` after its first read, while its first buffer has been neither
shifted nor replaced: the lines `done` have been returned as tokens, `pend` is read and not yet
consumed, and `pipe` is still to be read. -/
def scanState (pipe : List Bytes) (closing : Closing) (done : List Bytes) (pend : Bytes) :
    Scanner :=
  { pipe := pipe, closing := closing, retired := [[]], buf := terminated done ++ pend,
    cap := startBufSize, start := (terminated done).length,
    end_ := (terminated done ++ pend).length, err := none, empties := 0 }

/-- The slices `lines` denote the lines `done` in every buffer that starts with those lines,
each followed by its newline. -/
def Resolves (lines : List Slice) (done : List Bytes) : Prop :=
  ∀ tail : Bytes,
    lines.map (fun sl => (([[], terminated done ++ tail].getD sl.gen []).drop sl.off).take sl.len)
      = done

/-- The pipe content made of the given lines, each followed by CR LF. -/
def crlfLines : List Bytes → Bytes
  | [] => []
  | l :: ls => l ++ newline ++ crlfLines ls

/-- The scanner's positions are in order: `0 ≤ start ≤ end ≤ len(buf)`. -/
def Scanner.inOrder (s : Scanner) : Prop := s.start ≤ s.end_ ∧ s.end_ ≤ s.cap

/-- What a scan still has to go through: bytes and batches in the pipe, bytes pending in the
buffer, and the end of input. -/
def Scanner.toGo (s : Scanner) : Nat :=
  2 * s.pipe.flatten.length + s.pipe.length + (s.end_ - s.start) +
    (if s.err.isSome then 0 else 1)

/-- A pass that does not end the scan leaves the scanner in order and with less to go. -/
def Step.advances (s : Scanner) : Step → Prop
  | Step.token t _ => t.inOrder ∧ t.toGo < s.toGo
  | Step.again t => t.inOrder ∧ t.toGo < s.toGo
  | _ => True
/-! ## Facts about the library functions -/

theorem IndexByte_of_mem {b : Bytes} {c : UInt8} (h : c ∈ b) :
    IndexByte b c = (b.indexOf c : Int) := by
  simp [IndexByte, h]

theorem IndexByte_of_not_mem {b : Bytes} {c : UInt8} (h : c ∉ b) : IndexByte b c = -1 := by
  simp [IndexByte, h]

theorem HasPrefix_iff (s pre : Bytes) : HasPrefix s pre = true ↔ pre <+: s := by
  simp [HasPrefix]

theorem split_at_indexOf {data : Bytes} (h : nl ∈ data) :
    data = data.take (data.indexOf nl) ++ nl :: data.drop (data.indexOf nl + 1) := by
  induction data with
  | nil => simp at h
  | cons b bs ih =>
    by_cases hb : b = nl
    · subst hb; simp
    · have hmem : nl ∈ bs := by
        rcases List.mem_cons.mp h with h1 | h1
        · exact absurd h1.symm hb
        · exact h1
      have hne : nl ≠ b := fun e => hb e.symm
      rw [List.indexOf_cons_ne _ hb]
      simpa using ih hmem

theorem not_mem_take_indexOf (data : Bytes) : nl ∉ data.take (data.indexOf nl) := by
  induction data with
  | nil => simp
  | cons b bs ih =>
    by_cases hb : b = nl
    · subst hb; simp
    · rw [List.indexOf_cons_ne _ hb]
      simp only [List.take_succ_cons, List.mem_cons, not_or]
      exact ⟨fun e => hb e.symm, ih⟩

theorem firstLine_eq {data : Bytes} (h : nl ∈ data) :
    firstLine data = data.take (data.indexOf nl) ++ [nl] := by
  unfold firstLine
  induction data with
  | nil => simp at h
  | cons b bs ih =>
    by_cases hb : b = nl
    · subst hb; simp
    · have hmem : nl ∈ bs := by
        rcases List.mem_cons.mp h with h1 | h1
        · exact absurd h1.symm hb
        · exact h1
      rw [List.indexOf_cons_ne _ hb]
      simpa using ih hmem

theorem firstLine_isPrefix (data : Bytes) : firstLine data <+: data :=
  List.take_prefix _ _

theorem nl_mem_firstLine {data : Bytes} (h : nl ∈ data) : nl ∈ firstLine data := by
  rw [firstLine_eq h]; simp

theorem isPrefix_dropLast_of_ne {l₁ l₂ : Bytes} (h : l₁ <+: l₂) (hne : l₁ ≠ l₂) :
    l₁ <+: l₂.dropLast := by
  obtain ⟨t, rfl⟩ := h
  have ht : t ≠ [] := by
    intro e; subst e; simp at hne
  rw [List.dropLast_append_of_ne_nil _ ht]
  exact List.prefix_append _ _

/-- A boundary whose only possible newline is its last byte starts a buffer exactly when it
starts the buffer's first line. -/
theorem isPrefix_firstLine_iff {T data : Bytes} (hT : nl ∉ T.dropLast) (hd : nl ∈ data) :
    T <+: data ↔ T <+: firstLine data := by
  constructor
  · intro h
    rcases List.prefix_or_prefix_of_prefix h (firstLine_isPrefix data) with h1 | h1
    · exact h1
    · by_cases he : firstLine data = T
      · rw [he]
      · exact absurd ((isPrefix_dropLast_of_ne h1 he).subset (nl_mem_firstLine hd)) hT
  · intro h
    exact h.trans (firstLine_isPrefix data)

theorem not_mem_dropLast {T : Bytes} (hT : nl ∉ T) : nl ∉ T.dropLast :=
  fun h => hT ((List.dropLast_subset T) h)

/-! ## The two shapes of a call of the split function -/

theorem onBoundary_of_mem (T : Bytes) {data : Bytes} (atEOF : Bool) (h : nl ∈ data) :
    onBoundary T data atEOF =
      if T <+: data then ⟨0, none, some Error.ErrFinalToken⟩
      else ⟨(data.indexOf nl : Int) + 1, some (data.take (data.indexOf nl)), none⟩ := by
  have hne : data ≠ [] := List.ne_nil_of_mem h
  have hlen : ¬ (data.length = 0) := by
    intro e; exact hne (List.length_eq_zero.mp e)
  unfold onBoundary
  simp only [IndexByte_of_mem h]
  by_cases hp : T <+: data
  · have hp2 : HasPrefix data T = true := (HasPrefix_iff _ _).mpr hp
    simp [hlen, hp, hp2]
  · have hp2 : HasPrefix data T = false := by
      rw [← Bool.not_eq_true, HasPrefix_iff]; exact hp
    simp [hlen, hp, hp2]

theorem onBoundary_of_not_mem (T : Bytes) {data : Bytes} (atEOF : Bool) (h : nl ∉ data) :
    onBoundary T data atEOF =
      if atEOF = true ∧ data ≠ [] then ⟨data.length, some data, none⟩ else ⟨0, none, none⟩ := by
  unfold onBoundary
  simp only [IndexByte_of_not_mem h]
  cases atEOF <;> cases data <;> simp

/-! ## Single calls of the split function (C10) -/

/-- A boundary with a newline byte inside it can start a buffer without starting the buffer's
first line: for the boundary `a\nb` and the buffer `a\nb` the split function returns
`ErrFinalToken`, and the first line is `a\n`.  No token of `createBoundary` is of this kind. -/
theorem onBoundary_newline_inside_boundary :
    nl ∈ lit "a\nb" ∧
    onBoundary (lit "a\nb") (lit "a\nb") false = ⟨0, none, some Error.ErrFinalToken⟩ ∧
    ¬ (lit "a\nb" <+: firstLine (lit "a\nb")) := by
  decide

/-- For a boundary `T` with no newline byte before its last byte and a buffer that contains a
newline byte, the split function returns `ErrFinalToken` with advance 0 and no token if and only
if the buffer's first line, taken up to and including its newline, starts with `T`; otherwise
it emits the bytes before the first newline and advances to one past that newline. -/
theorem onBoundary_first_line_iff (T data : Bytes) (atEOF : Bool)
    (hT : nl ∉ T.dropLast) (hd : nl ∈ data) :
    (onBoundary T data atEOF = ⟨0, none, some Error.ErrFinalToken⟩ ↔ T <+: firstLine data) ∧
    (¬ T <+: firstLine data →
      onBoundary T data atEOF =
        ⟨(data.indexOf nl : Int) + 1, some (data.take (data.indexOf nl)), none⟩) := by
  rw [onBoundary_of_mem T atEOF hd, ← isPrefix_firstLine_iff hT hd]
  by_cases hp : T <+: data
  · simp [hp]
  · simp [hp]

/-- Once the buffer holds a newline byte, a call of the split function does not depend on the
bytes after the buffer nor on the `atEOF` flag (the boundary holding no newline byte). -/
theorem onBoundary_append (T d e : Bytes) (a b : Bool) (hT : nl ∉ T) (hd : nl ∈ d) :
    onBoundary T (d ++ e) a = onBoundary T d b := by
  have hde : nl ∈ d ++ e := List.mem_append_left e hd
  have hidx : (d ++ e).indexOf nl = d.indexOf nl := List.indexOf_append_of_mem hd
  have hlt : d.indexOf nl < d.length := List.indexOf_lt_length.mpr hd
  have hfl : firstLine (d ++ e) = firstLine d := by
    unfold firstLine
    rw [hidx, List.take_append_of_le_length hlt]
  have hpre : T <+: d ++ e ↔ T <+: d := by
    rw [isPrefix_firstLine_iff (not_mem_dropLast hT) hde,
      isPrefix_firstLine_iff (not_mem_dropLast hT) hd, hfl]
  rw [onBoundary_of_mem T a hde, onBoundary_of_mem T b hd, hidx,
    List.take_append_of_le_length (Nat.le_of_lt hlt)]
  by_cases hp : T <+: d
  · simp [hp, hpre]
  · simp [hp, hpre]

theorem onBoundary_advance_bounds (T data : Bytes) (atEOF : Bool) :
    0 ≤ (onBoundary T data atEOF).advance ∧
    (onBoundary T data atEOF).advance ≤ (data.length : Int) := by
  by_cases hd : nl ∈ data
  · rw [onBoundary_of_mem T atEOF hd]
    have hlt : data.indexOf nl < data.length := List.indexOf_lt_length.mpr hd
    by_cases hp : T <+: data
    · simp [hp]
    · simp only [hp, if_false]
      omega
  · rw [onBoundary_of_not_mem T atEOF hd]
    by_cases hc : atEOF = true ∧ data ≠ []
    · rw [if_pos hc]; simp
    · rw [if_neg hc]; simp

theorem onBoundary_token (T data : Bytes) (atEOF : Bool) (t : Bytes)
    (h : (onBoundary T data atEOF).token = some t) :
    t <+: data ∧ nl ∉ t ∧ (onBoundary T data atEOF).err = none ∧
      1 ≤ (onBoundary T data atEOF).advance := by
  by_cases hd : nl ∈ data
  · rw [onBoundary_of_mem T atEOF hd] at h ⊢
    by_cases hp : T <+: data
    · rw [if_pos hp] at h; simp at h
    · rw [if_neg hp] at h ⊢
      simp only [Option.some.injEq] at h
      subst h
      refine ⟨List.take_prefix _ _, not_mem_take_indexOf data, rfl, ?_⟩
      show (1 : Int) ≤ (data.indexOf nl : Int) + 1
      omega
  · rw [onBoundary_of_not_mem T atEOF hd] at h ⊢
    by_cases hc : atEOF = true ∧ data ≠ []
    · rw [if_pos hc] at h ⊢
      simp only [Option.some.injEq] at h
      subst h
      refine ⟨List.prefix_refl _, hd, rfl, ?_⟩
      have : 0 < data.length := List.length_pos.mpr hc.2
      show (1 : Int) ≤ (data.length : Int)
      omega
    · rw [if_neg hc] at h; simp at h

/-- Every run of the split loop over a finite stream stops at a call of the split function,
within one call more than the stream has bytes. -/
theorem applySplit_terminates (T : Bytes) (atEOF : Bool) :
    ∀ (fuel : Nat) (data : Bytes), data.length < fuel →
      (applySplit (onBoundary T) atEOF fuel data).last ≠ none := by
  intro fuel
  induction fuel with
  | zero => intro data h; omega
  | succ n ih =>
    intro data h
    unfold applySplit
    simp only
    split
    · simp
    · split
      · simp
      · rename_i he hn
        simp only
        apply ih
        have hb := onBoundary_advance_bounds T data atEOF
        cases ht : (onBoundary T data atEOF).token with
        | none =>
          simp [ht] at hn
          rw [List.length_drop]; omega
        | some t =>
          have h1 := (onBoundary_token T data atEOF t ht).2.2.2
          rw [List.length_drop]; omega

/-- C10: for every boundary token, every buffer and either value of the `atEOF` flag, the split
function returns an advance between 0 and the buffer length inclusive, every token it emits is
a newline-free prefix of the buffer, and whenever it emits a token without an error the advance
is at least 1; so the split loop over a finite stream stops within one call more than the
stream has bytes. -/
theorem C10_advance_and_token_bounds (T data : Bytes) (atEOF : Bool) :
    0 ≤ (onBoundary T data atEOF).advance ∧
    (onBoundary T data atEOF).advance ≤ (data.length : Int) ∧
    (∀ t, (onBoundary T data atEOF).token = some t → t <+: data ∧ nl ∉ t) ∧
    (∀ t, (onBoundary T data atEOF).token = some t → (onBoundary T data atEOF).err = none →
      1 ≤ (onBoundary T data atEOF).advance) ∧
    (∀ fuel, data.length < fuel → (applySplit (onBoundary T) atEOF fuel data).last ≠ none) := by
  refine ⟨(onBoundary_advance_bounds T data atEOF).1, (onBoundary_advance_bounds T data atEOF).2,
    ?_, ?_, ?_⟩
  · intro t ht
    exact ⟨(onBoundary_token T data atEOF t ht).1, (onBoundary_token T data atEOF t ht).2.1⟩
  · intro t ht _
    exact (onBoundary_token T data atEOF t ht).2.2.2
  · intro fuel hf
    exact applySplit_terminates T atEOF fuel data hf

/-! ## Scanning a whole stream with the split function (C1, C2) -/

theorem isPrefix_line_iff {T L : Bytes} (rest : Bytes) (hT : nl ∉ T) :
    T <+: L ++ nl :: rest ↔ T <+: L := by
  constructor
  · intro h
    rcases List.prefix_or_prefix_of_prefix h (List.prefix_append L (nl :: rest)) with h1 | h1
    · exact h1
    · obtain ⟨t, rfl⟩ := h1
      cases t with
      | nil => simp
      | cons b bs =>
        rw [List.prefix_append_right_inj] at h
        have hb : b = nl := by
          obtain ⟨u, hu⟩ := h
          simp only [List.cons_append, List.cons.injEq] at hu
          exact hu.1
        subst hb
        exact absurd (List.mem_append_right L (List.mem_cons_self _ _)) hT
  · intro h
    exact h.trans (List.prefix_append _ _)

theorem indexOf_line {L : Bytes} (rest : Bytes) (hL : nl ∉ L) :
    (L ++ nl :: rest).indexOf nl = L.length := by
  rw [List.indexOf_append_of_not_mem hL]
  simp

/-- A call of the split function on a buffer that starts with a whole line. -/
theorem onBoundary_line (T : Bytes) {L : Bytes} (rest : Bytes) (atEOF : Bool)
    (hT : nl ∉ T) (hL : nl ∉ L) :
    onBoundary T (L ++ nl :: rest) atEOF =
      if T <+: L then ⟨0, none, some Error.ErrFinalToken⟩
      else ⟨(L.length : Int) + 1, some L, none⟩ := by
  have hmem : nl ∈ L ++ nl :: rest := List.mem_append_right L (List.mem_cons_self _ _)
  rw [onBoundary_of_mem T atEOF hmem, indexOf_line rest hL, List.take_left]
  by_cases hp : T <+: L
  · rw [if_pos hp, if_pos ((isPrefix_line_iff rest hT).mpr hp)]
  · rw [if_neg hp, if_neg (fun h => hp ((isPrefix_line_iff rest hT).mp h))]

theorem linesFrom_line (cur : Bytes) {L : Bytes} (rest : Bytes) (hL : nl ∉ L) :
    linesFrom cur (L ++ nl :: rest) = (cur ++ L) :: linesFrom [] rest := by
  induction L generalizing cur with
  | nil => simp [linesFrom]
  | cons b bs ih =>
    have hb : b ≠ nl := fun e => hL (by simp [e])
    have hbs : nl ∉ bs := fun h => hL (List.mem_cons_of_mem _ h)
    rw [List.cons_append, linesFrom, if_neg hb, ih _ hbs]
    simp

theorem linesFrom_last (cur : Bytes) {s : Bytes} (hs : nl ∉ s) :
    linesFrom cur s = if cur ++ s = [] then [] else [cur ++ s] := by
  induction s generalizing cur with
  | nil => simp [linesFrom]
  | cons b bs ih =>
    have hb : b ≠ nl := fun e => hs (by simp [e])
    have hbs : nl ∉ bs := fun h => hs (List.mem_cons_of_mem _ h)
    simp only [linesFrom, hb, if_false]
    rw [ih _ hbs]
    simp

theorem linesOf_line {L : Bytes} (rest : Bytes) (hL : nl ∉ L) :
    linesOf (L ++ nl :: rest) = L :: linesOf rest := by
  unfold linesOf
  rw [linesFrom_line [] rest hL]
  simp

theorem linesOf_terminated_append (Ls : List Bytes) (rest : Bytes) (hL : ∀ L ∈ Ls, nl ∉ L) :
    linesOf (terminated Ls ++ rest) = Ls ++ linesOf rest := by
  induction Ls with
  | nil => simp [terminated]
  | cons L Ls ih =>
    have h1 : nl ∉ L := hL L (List.mem_cons_self _ _)
    have h2 : ∀ L ∈ Ls, nl ∉ L := fun M hM => hL M (List.mem_cons_of_mem _ hM)
    simp only [terminated, List.append_assoc, List.cons_append]
    rw [linesOf_line _ h1, ih h2]

theorem applySplit_boundary_stream (T : Bytes) (B G : Bytes) (atEOF : Bool)
    (hT : nl ∉ T) (hB : T <+: B) (hBn : nl ∉ B) :
    ∀ (Ls : List Bytes) (fuel : Nat), (∀ L ∈ Ls, nl ∉ L ∧ ¬ T <+: L) → Ls.length < fuel →
      applySplit (onBoundary T) atEOF fuel (terminated Ls ++ (B ++ nl :: G)) =
        ⟨Ls, (terminated Ls).length, some ⟨0, none, some Error.ErrFinalToken⟩⟩ := by
  intro Ls
  induction Ls with
  | nil =>
    intro fuel _ hf
    cases fuel with
    | zero => simp at hf
    | succ n =>
      simp only [terminated, List.nil_append, List.length_nil]
      unfold applySplit
      rw [onBoundary_line T G atEOF hT hBn, if_pos hB]
      simp
  | cons L Ls ih =>
    intro fuel hL hf
    have h1 := hL L (List.mem_cons_self _ _)
    have h2 : ∀ M ∈ Ls, nl ∉ M ∧ ¬ T <+: M := fun M hM => hL M (List.mem_cons_of_mem _ hM)
    cases fuel with
    | zero => simp at hf
    | succ n =>
      have hn : Ls.length < n := by simpa using hf
      simp only [terminated, List.append_assoc, List.cons_append]
      unfold applySplit
      rw [onBoundary_line T _ atEOF hT h1.1, if_neg h1.2]
      have hnat : ((L.length : Int) + 1).toNat = L.length + 1 := by omega
      have hpos : ¬ ((L.length : Int) + 1 ≤ 0) := by omega
      simp only [hnat, hpos, Option.isSome_none, Bool.false_eq_true, if_false, Option.isNone_some,
        Bool.false_and, decide_False, Option.toList_some, List.singleton_append]
      have hdrop : List.drop (L.length + 1) (L ++ nl :: (terminated Ls ++ (B ++ nl :: G))) =
          terminated Ls ++ (B ++ nl :: G) := by
        rw [show L ++ nl :: (terminated Ls ++ (B ++ nl :: G)) =
          (L ++ [nl]) ++ (terminated Ls ++ (B ++ nl :: G)) by simp]
        rw [show L.length + 1 = (L ++ [nl]).length by simp, List.drop_left]
      rw [hdrop, ih n h2 hn]
      simp
      omega

/-- C1: for every boundary token `T` containing no newline byte, every list of lines
`L1..Ln` (each containing no newline byte and none starting with `T`), every boundary line `B`
that starts with `T` and contains no newline byte, and every trailing byte string `G`:
repeatedly applying the split function of `onBoundary(T)` to the stream
`L1\n ... Ln\n B\n G`, consuming the returned advance after each call, emits exactly the tokens
`[L1, ..., Ln]` and then returns `ErrFinalToken` with advance 0 and no token, so the bytes
consumed are exactly those of `L1\n ... Ln\n`, and `B\n G` is what remains unconsumed.  This
holds for either value of the `atEOF` flag and any budget of more than `n` calls. -/
theorem C1_scan_stops_at_boundary (T : Bytes) (Ls : List Bytes) (B G : Bytes) (atEOF : Bool)
    (fuel : Nat) (hT : nl ∉ T) (hL : ∀ L ∈ Ls, nl ∉ L ∧ ¬ T <+: L) (hB : T <+: B)
    (hBn : nl ∉ B) (hf : Ls.length < fuel) :
    applySplit (onBoundary T) atEOF fuel (terminated Ls ++ (B ++ nl :: G)) =
        ⟨Ls, (terminated Ls).length, some ⟨0, none, some Error.ErrFinalToken⟩⟩ ∧
    (terminated Ls ++ (B ++ nl :: G)).drop
        (applySplit (onBoundary T) atEOF fuel (terminated Ls ++ (B ++ nl :: G))).consumed =
      B ++ nl :: G := by
  have h := applySplit_boundary_stream T B G atEOF hT hB hBn Ls fuel hL hf
  refine ⟨h, ?_⟩
  rw [h]
  exact List.drop_left _ _

theorem C1_scan_stops_at_boundary_witness :
    applySplit (onBoundary (lit "$x$")) false 3
        (terminated [lit "ab", lit "c"] ++ (lit "$x$ end" ++ nl :: lit "junk\nmore")) =
        ⟨[lit "ab", lit "c"], (terminated [lit "ab", lit "c"]).length,
          some ⟨0, none, some Error.ErrFinalToken⟩⟩ ∧
    (terminated [lit "ab", lit "c"] ++ (lit "$x$ end" ++ nl :: lit "junk\nmore")).drop
        (applySplit (onBoundary (lit "$x$")) false 3
          (terminated [lit "ab", lit "c"] ++ (lit "$x$ end" ++ nl :: lit "junk\nmore"))).consumed =
      lit "$x$ end" ++ nl :: lit "junk\nmore" :=
  C1_scan_stops_at_boundary (lit "$x$") [lit "ab", lit "c"] (lit "$x$ end") (lit "junk\nmore")
    false 3 (by decide) (by decide) (by decide) (by decide) (by decide)

theorem exists_line {S : Bytes} (h : nl ∈ S) : ∃ L rest, nl ∉ L ∧ S = L ++ nl :: rest :=
  ⟨_, _, not_mem_take_indexOf S, split_at_indexOf h⟩

theorem linesFrom_append (cur p X : Bytes) :
    linesFrom cur (p ++ nl :: X) = linesFrom cur (p ++ [nl]) ++ linesFrom [] X := by
  induction p generalizing cur with
  | nil => simp [linesFrom]
  | cons b bs ih =>
    by_cases hb : b = nl
    · subst hb
      rw [List.cons_append, List.cons_append, linesFrom, if_pos rfl, linesFrom, if_pos rfl, ih]
      simp
    · rw [List.cons_append, List.cons_append, linesFrom, if_neg hb, linesFrom, if_neg hb, ih]

theorem applySplit_lines (T : Bytes) (hT : nl ∉ T) :
    ∀ (fuel : Nat) (S : Bytes), (∀ l ∈ linesOf S, ¬ T <+: l) → S.length < fuel →
      applySplit (onBoundary T) true fuel S = ⟨linesOf S, S.length, some ⟨0, none, none⟩⟩ := by
  intro fuel
  induction fuel with
  | zero => intro S _ hf; omega
  | succ n ih =>
    intro S hS hf
    by_cases hmem : nl ∈ S
    · obtain ⟨L, rest, hL, rfl⟩ := exists_line hmem
      rw [linesOf_line rest hL] at hS ⊢
      have hTL : ¬ T <+: L := hS L (List.mem_cons_self _ _)
      have hrest : ∀ l ∈ linesOf rest, ¬ T <+: l := fun l hl => hS l (List.mem_cons_of_mem _ hl)
      have hlen : rest.length < n := by
        simp only [List.length_append, List.length_cons] at hf
        omega
      unfold applySplit
      rw [onBoundary_line T rest true hT hL, if_neg hTL]
      have hnat : ((L.length : Int) + 1).toNat = L.length + 1 := by omega
      have hpos : ¬ ((L.length : Int) + 1 ≤ 0) := by omega
      simp only [hnat, hpos, Option.isSome_none, Bool.false_eq_true, if_false, Option.isNone_some,
        Bool.false_and, decide_False, Option.toList_some, List.singleton_append]
      have hdrop : List.drop (L.length + 1) (L ++ nl :: rest) = rest := by
        rw [show L ++ nl :: rest = (L ++ [nl]) ++ rest by simp]
        rw [show L.length + 1 = (L ++ [nl]).length by simp, List.drop_left]
      rw [hdrop, ih rest hrest hlen]
      simp
      omega
    · by_cases hnil : S = []
      · subst hnil
        unfold applySplit
        simp [onBoundary, linesOf, linesFrom]
      · have hpos : 0 < S.length := List.length_pos.mpr hnil
        have hn : ([] : Bytes).length < n := by
          simp only [List.length_nil]; omega
        have hlines : linesOf S = [S] := by
          unfold linesOf
          rw [linesFrom_last [] hmem]
          simp [hnil]
        have hempty : ∀ l ∈ linesOf ([] : Bytes), ¬ T <+: l := by
          intro l hl
          simp [linesOf, linesFrom] at hl
        have honb : onBoundary T S true = ⟨(S.length : Int), some S, none⟩ := by
          rw [onBoundary_of_not_mem T true hmem]
          simp [hnil]
        unfold applySplit
        rw [honb]
        have hle : ¬ ((S.length : Int) ≤ 0) := by omega
        simp only [hle, Option.isSome_none, Bool.false_eq_true, if_false, Option.isNone_some,
          Bool.false_and, decide_False, Option.toList_some, List.singleton_append,
          Int.toNat_ofNat, List.drop_length]
        rw [ih [] hempty hn, hlines]
        simp [linesOf, linesFrom]

theorem no_final_token (T S : Bytes) (hT : nl ∉ T) (hS : ∀ l ∈ linesOf S, ¬ T <+: l)
    (pre d post : Bytes) (atEOF : Bool) (hcut : S = pre ++ (d ++ post))
    (hpre : pre = [] ∨ ∃ p, pre = p ++ [nl]) :
    (onBoundary T d atEOF).err ≠ some Error.ErrFinalToken := by
  by_cases hmem : nl ∈ d
  · obtain ⟨L, rest, hL, rfl⟩ := exists_line hmem
    have hin : L ∈ linesOf S := by
      rcases hpre with rfl | ⟨p, rfl⟩
      · rw [hcut]
        simp only [List.nil_append, List.append_assoc, List.cons_append]
        rw [linesOf_line _ hL]
        exact List.mem_cons_self _ _
      · rw [hcut]
        have e : p ++ [nl] ++ (L ++ nl :: rest ++ post) =
            p ++ nl :: (L ++ nl :: (rest ++ post)) := by simp
        rw [e]
        unfold linesOf
        rw [linesFrom_append]
        apply List.mem_append_right
        rw [linesFrom_line [] _ hL]
        simp
    rw [onBoundary_line T rest atEOF hT hL, if_neg (hS L hin)]
    simp
  · rw [onBoundary_of_not_mem T atEOF hmem]
    split <;> simp

/-- C2: for every boundary token `T` containing no newline byte and every byte stream `S` in
which no line (newline-terminated or the final unterminated one) starts with `T`: scanning `S`
to end-of-stream with the split function of `onBoundary(T)` emits exactly the lines of `S` and
consumes all of `S`; the split function returns advance 0 with no token and no error whenever
the bytes it is given hold no newline and the stream is not at its end; and no call on a window
of `S` that begins at a line start returns `ErrFinalToken`. -/
theorem C2_scan_emits_lines (T S : Bytes) (hT : nl ∉ T) (hS : ∀ l ∈ linesOf S, ¬ T <+: l) :
    (∀ fuel, S.length < fuel →
      applySplit (onBoundary T) true fuel S = ⟨linesOf S, S.length, some ⟨0, none, none⟩⟩) ∧
    (∀ r, nl ∉ r → onBoundary T r false = ⟨0, none, none⟩) ∧
    (∀ pre d post atEOF, S = pre ++ (d ++ post) → (pre = [] ∨ ∃ p, pre = p ++ [nl]) →
      (onBoundary T d atEOF).err ≠ some Error.ErrFinalToken) := by
  refine ⟨fun fuel hf => applySplit_lines T hT fuel S hS hf, ?_, ?_⟩
  · intro r hr
    rw [onBoundary_of_not_mem T false hr]
    simp
  · intro pre d post atEOF hcut hpre
    exact no_final_token T S hT hS pre d post atEOF hcut hpre

theorem C2_scan_emits_lines_witness :
    (∀ l ∈ linesOf (lit "ab\n\nc$x$"), ¬ lit "$x$" <+: l) ∧
    ((∀ fuel, (lit "ab\n\nc$x$").length < fuel →
      applySplit (onBoundary (lit "$x$")) true fuel (lit "ab\n\nc$x$") =
        ⟨linesOf (lit "ab\n\nc$x$"), (lit "ab\n\nc$x$").length, some ⟨0, none, none⟩⟩) ∧
    (∀ r, nl ∉ r → onBoundary (lit "$x$") r false = ⟨0, none, none⟩) ∧
    (∀ pre d post atEOF, lit "ab\n\nc$x$" = pre ++ (d ++ post) →
      (pre = [] ∨ ∃ p, pre = p ++ [nl]) →
      (onBoundary (lit "$x$") d atEOF).err ≠ some Error.ErrFinalToken)) :=
  ⟨by decide, C2_scan_emits_lines (lit "$x$") (lit "ab\n\nc$x$") (by decide) (by decide)⟩

/-! ## The boundary generator (C7) -/

/-- C7, as stated, fails: with a random-string collaborator that returns twelve letters `a`,
the token is not a `$`, a body of exactly 12 characters and a `$`: it is 21 bytes long. -/
theorem C7_counterexample :
    ((fun n => List.replicate n (97 : UInt8)) 12).length = 12 ∧
    (∀ b ∈ (fun n => List.replicate n (97 : UInt8)) 12, isAlnum b = true) ∧
    ¬ ∃ body : Bytes, body.length = 12 ∧
      createBoundary (fun n => List.replicate n (97 : UInt8)) = lit "$" ++ body ++ lit "$" := by
  refine ⟨by decide, by decide, ?_⟩
  rintro ⟨body, hlen, h⟩
  have h1 := congrArg List.length h
  have h2 : (createBoundary (fun n => List.replicate n (97 : UInt8))).length = 21 := by decide
  have h3 : (lit "$").length = 1 := by decide
  rw [h2] at h1
  simp only [List.length_append, hlen, h3] at h1
  omega

/-- C7, amended: every token returned by `createBoundary` is one sentinel character `$`, then
the fixed word `gorilla`, then the 12 random alphanumeric characters, then one sentinel
character `$`: a body of 19 alphanumeric characters between the sentinels, 21 bytes in all, none
of them a newline (assuming the random-string collaborator returns exactly the requested number
of alphanumeric characters). -/
theorem C7_boundary_format (CreateRandomString : Nat → Bytes)
    (hlen : (CreateRandomString 12).length = 12)
    (halnum : ∀ b ∈ CreateRandomString 12, isAlnum b = true) :
    createBoundary CreateRandomString =
      lit "$" ++ (lit "gorilla" ++ CreateRandomString 12) ++ lit "$" ∧
    (lit "gorilla" ++ CreateRandomString 12).length = 19 ∧
    (∀ b ∈ lit "gorilla" ++ CreateRandomString 12, isAlnum b = true) ∧
    (createBoundary CreateRandomString).length = 21 ∧
    nl ∉ createBoundary CreateRandomString := by
  have hg : (lit "gorilla").length = 7 := by decide
  have hd : (lit "$").length = 1 := by decide
  have hgd : (lit "$gorilla").length = 8 := by decide
  have hga : ∀ b ∈ lit "gorilla", isAlnum b = true := by decide
  have hbody : ∀ b ∈ lit "gorilla" ++ CreateRandomString 12, isAlnum b = true := by
    intro b hb
    rcases List.mem_append.mp hb with h | h
    · exact hga b h
    · exact halnum b h
  have heq : createBoundary CreateRandomString =
      lit "$" ++ (lit "gorilla" ++ CreateRandomString 12) ++ lit "$" := by
    unfold createBoundary
    have : lit "$gorilla" = lit "$" ++ lit "gorilla" := by decide
    rw [this]
    simp
  refine ⟨heq, ?_, hbody, ?_, ?_⟩
  · simp [hg, hlen]
  · unfold createBoundary
    simp [hgd, hd, hlen]
  · rw [heq]
    intro hmem
    simp only [List.mem_append] at hmem
    rcases hmem with (h | h) | h
    · revert h; decide
    · have := hbody nl (List.mem_append.mpr h)
      revert this; decide
    · revert h; decide

theorem C7_boundary_format_witness :
    createBoundary (fun n => List.replicate n (97 : UInt8)) =
      lit "$" ++ (lit "gorilla" ++ (fun n => List.replicate n (97 : UInt8)) 12) ++ lit "$" ∧
    (lit "gorilla" ++ (fun n => List.replicate n (97 : UInt8)) 12).length = 19 ∧
    (∀ b ∈ lit "gorilla" ++ (fun n => List.replicate n (97 : UInt8)) 12, isAlnum b = true) ∧
    (createBoundary (fun n => List.replicate n (97 : UInt8))).length = 21 ∧
    nl ∉ createBoundary (fun n => List.replicate n (97 : UInt8)) :=
  C7_boundary_format (fun n => List.replicate n (97 : UInt8)) (by decide) (by decide)

/-! ## The session (C5, C6) -/

/-- C5: for every live session and every command string, after `Exit` has completed on the
session, `Execute(cmd)` returns empty stdout, empty stderr and the closed-session error that
carries `cmd`; it hands nothing to the input pipe and starts no stream reader, so it neither
panics nor blocks; the session stays closed. -/
theorem C5_execute_after_exit (s closed : shell) (exitEnv : ExitEnv) (env : ExecEnv)
    (cmd : Bytes) (hlive : s.handle ≠ none)
    (hexit : (Exit s exitEnv).outcome = Run.returned closed) :
    Execute closed env cmd =
      ⟨Run.returned ⟨[], [], some (Error.Annotate (Error.New cmd)
        (lit "Cannot execute commands on closed shells."))⟩, closed, [], 0⟩ := by
  have hclosed : closed.handle = none := by
    unfold Exit at hexit
    cases hs : s.stdin with
    | none => simp [hs] at hexit
    | some w =>
      cases hh : s.handle with
      | none => exact absurd hh hlive
      | some h =>
        simp only [hs, hh] at hexit
        by_cases hw : exitEnv.waitReturns = true
        · simp only [hw, if_true, Run.returned.injEq] at hexit
          rw [← hexit]
        · simp [hw] at hexit
  unfold Execute
  simp [hclosed]

theorem C5_execute_after_exit_witness :
    Execute ⟨none, none, none, none, [], []⟩
        ⟨fun n => List.replicate n 65, fun n => List.replicate n 66, none,
          ⟨[], Closing.blocks⟩, ⟨[], Closing.blocks⟩⟩ (lit "echo hello") =
      ⟨Run.returned ⟨[], [], some (Error.Annotate (Error.New (lit "echo hello"))
        (lit "Cannot execute commands on closed shells."))⟩,
        ⟨none, none, none, none, [], []⟩, [], 0⟩ :=
  C5_execute_after_exit ⟨some 1, some 2, some 3, some 4, [], []⟩
    ⟨none, none, none, none, [], []⟩ ⟨true, true⟩
    ⟨fun n => List.replicate n 65, fun n => List.replicate n 66, none,
      ⟨[], Closing.blocks⟩, ⟨[], Closing.blocks⟩⟩ (lit "echo hello") (by decide) (by decide)

/-- C6: for every live session and every command string, if the write of the augmented command
to the input pipe fails, `Execute` returns empty stdout, empty stderr and the write error
annotated with the command text; the only thing it did was to hand the augmented command to the
input pipe once, it started no stream reader, and the session, with its process handle and its
three pipe endpoints, is unchanged and so still live. -/
theorem C6_write_failure (s : shell) (env : ExecEnv) (cmd : Bytes) (e : Error)
    (hlive : s.handle ≠ none) (hin : s.stdin ≠ none) (hfail : env.writeErr = some e) :
    Execute s env cmd =
      ⟨Run.returned ⟨[], [], some (Error.Annotate (Error.Annotate e cmd)
        (lit "Could not send PowerShell command"))⟩, s,
        [fullCommand cmd (createBoundary env.random₁) (createBoundary env.random₂)], 0⟩ ∧
    (Execute s env cmd).session.handle ≠ none := by
  cases hh : s.handle with
  | none => exact absurd hh hlive
  | some h =>
    cases hs : s.stdin with
    | none => exact absurd hs hin
    | some w =>
      have hE : Execute s env cmd =
          ⟨Run.returned ⟨[], [], some (Error.Annotate (Error.Annotate e cmd)
            (lit "Could not send PowerShell command"))⟩, s,
            [fullCommand cmd (createBoundary env.random₁) (createBoundary env.random₂)], 0⟩ := by
        unfold Execute
        simp [hh, hs, hfail]
      refine ⟨hE, ?_⟩
      rw [hE]
      simp [hh]

theorem C6_write_failure_witness :
    Execute ⟨some 1, some 2, some 3, some 4, [], []⟩
        ⟨fun n => List.replicate n 65, fun n => List.replicate n 66,
          some (Error.Other (lit "broken pipe")), ⟨[], Closing.blocks⟩, ⟨[], Closing.blocks⟩⟩
        (lit "dir") =
      ⟨Run.returned ⟨[], [], some (Error.Annotate
          (Error.Annotate (Error.Other (lit "broken pipe")) (lit "dir"))
          (lit "Could not send PowerShell command"))⟩,
        ⟨some 1, some 2, some 3, some 4, [], []⟩,
        [fullCommand (lit "dir") (createBoundary fun n => List.replicate n 65)
          (createBoundary fun n => List.replicate n 66)], 0⟩ ∧
    (Execute ⟨some 1, some 2, some 3, some 4, [], []⟩
        ⟨fun n => List.replicate n 65, fun n => List.replicate n 66,
          some (Error.Other (lit "broken pipe")), ⟨[], Closing.blocks⟩, ⟨[], Closing.blocks⟩⟩
        (lit "dir")).session.handle ≠ none :=
  C6_write_failure ⟨some 1, some 2, some 3, some 4, [], []⟩
    ⟨fun n => List.replicate n 65, fun n => List.replicate n 66,
      some (Error.Other (lit "broken pipe")), ⟨[], Closing.blocks⟩, ⟨[], Closing.blocks⟩⟩
    (lit "dir") (Error.Other (lit "broken pipe")) (by decide) (by decide) rfl

/-! ## Completion of the stream reader (C4) -/

/-- C4 fails on the code: when the pipe delivers `abc` and then a read error, `streamReader`
logs the error and returns it without storing a string and without calling `Done`; an `Execute`
whose stdout pipe does this never gets past its `Wait`, although the stderr reader finished. -/
theorem C4_no_done_on_read_error :
    streamReader ⟨[lit "abc"], Closing.failed (Error.Other (lit "read failed"))⟩ (lit "$x$") =
      Run.returned ⟨none, 0, some (Error.Other (lit "read failed")),
        some (Error.Other (lit "read failed"))⟩ ∧
    streamReader ⟨[createBoundary (fun n => List.replicate n 66) ++ lit "\r\n"], Closing.blocks⟩
        (createBoundary fun n => List.replicate n 66) =
      Run.returned ⟨some [], 1, none, none⟩ ∧
    (Execute ⟨some 1, some 2, some 3, some 4, [], []⟩
        ⟨fun n => List.replicate n 65, fun n => List.replicate n 66, none,
          ⟨[lit "abc"], Closing.failed (Error.Other (lit "read failed"))⟩,
          ⟨[createBoundary (fun n => List.replicate n 66) ++ lit "\r\n"], Closing.blocks⟩⟩
        (lit "dir")).outcome = Run.blocked := by
  decide

/-! ## The stream reader on a pipe that carries lines and then the boundary line (C3) -/

theorem terminated_append (a b : List Bytes) :
    terminated (a ++ b) = terminated a ++ terminated b := by
  induction a with
  | nil => simp [terminated]
  | cons L a ih => simp [terminated, ih]

theorem line_unique {L₀ L X Y : Bytes} (h₀ : nl ∉ L₀) (h : nl ∉ L)
    (e : L₀ ++ nl :: X = L ++ nl :: Y) : L₀ = L ∧ X = Y := by
  have hlen : L₀.length = L.length := by
    rw [← indexOf_line X h₀, ← indexOf_line Y h, e]
  have := List.append_inj e hlen
  exact ⟨this.1, (List.cons.inj this.2).2⟩

theorem length_le_of_no_newline {pend flat L Y : Bytes} (hp : nl ∉ pend)
    (e : pend ++ flat = L ++ nl :: Y) : pend.length ≤ L.length := by
  by_contra hlt
  have hlt : L.length + 1 ≤ pend.length := by omega
  have h1 : (pend ++ flat).take (L.length + 1) = pend.take (L.length + 1) :=
    List.take_append_of_le_length hlt
  have h2 : (L ++ nl :: Y).take (L.length + 1) = L ++ [nl] := by
    rw [show L ++ nl :: Y = (L ++ [nl]) ++ Y by simp]
    rw [show L.length + 1 = (L ++ [nl]).length by simp, List.take_left]
  rw [e, h2] at h1
  have hmem : nl ∈ pend.take (L.length + 1) := by
    rw [← h1]; simp
  exact hp (List.mem_of_mem_take hmem)

theorem pending_scanState (pipe : List Bytes) (cl : Closing) (done : List Bytes) (pend : Bytes) :
    (scanState pipe cl done pend).pending = pend := by
  simp [Scanner.pending, scanState]

theorem scanState_token (pipe : List Bytes) (cl : Closing) (done : List Bytes) (L rest : Bytes) :
    scanState pipe cl (done ++ [L]) rest =
      { scanState pipe cl done (L ++ nl :: rest) with
        start := (terminated done).length + (L.length + 1), empties := 0 } := by
  simp [scanState, terminated_append, terminated]

/-- A pass over a buffer that starts with a whole line other than the boundary line returns the
line as a token. -/
theorem pass_token (T : Bytes) (pipe : List Bytes) (cl : Closing) (done : List Bytes)
    (L rest : Bytes) (hT : nl ∉ T) (hL : nl ∉ L) (hTL : ¬ T <+: L) :
    (scanState pipe cl done (L ++ nl :: rest)).pass (onBoundary T) =
      Step.token (scanState pipe cl (done ++ [L]) rest)
        ⟨1, (terminated done).length, L.length⟩ := by
  rw [scanState_token]
  unfold Scanner.pass
  rw [pending_scanState, onBoundary_line T rest _ hT hL, if_neg hTL]
  have hend : (scanState pipe cl done (L ++ nl :: rest)).end_ =
      (terminated done).length + (L.length + 1 + rest.length) := by
    simp [scanState]; omega
  have h1 : (terminated done).length + (L.length + 1 + rest.length) >
      (terminated done).length := by omega
  have h2 : ¬ ((L.length : Int) + 1 < 0) := by omega
  have h3 : ¬ ((L.length : Int) + 1 >
      (((terminated done).length + (L.length + 1 + rest.length) -
        (terminated done).length : Nat) : Int)) := by
    omega
  have h4 : ((L.length : Int) + 1).toNat = L.length + 1 := by omega
  have h5 : (scanState pipe cl done (L ++ nl :: rest)).err = none := rfl
  have h6 : (scanState pipe cl done (L ++ nl :: rest)).retired.length = 1 := rfl
  have h7 : (scanState pipe cl done (L ++ nl :: rest)).start = (terminated done).length := rfl
  simp only [h7, hend, h1, decide_True, Bool.true_or, if_true, h2, h3, if_false, h4, h5, h6,
    Option.isNone_none]

/-- A pass over a buffer that starts with the boundary line ends the scan without a token. -/
theorem pass_final (T : Bytes) (pipe : List Bytes) (cl : Closing) (done : List Bytes)
    (B rest : Bytes) (hT : nl ∉ T) (hBn : nl ∉ B) (hB : T <+: B) :
    (scanState pipe cl done (B ++ nl :: rest)).pass (onBoundary T) =
      Step.stop (scanState pipe cl done (B ++ nl :: rest)) none := by
  unfold Scanner.pass
  rw [pending_scanState, onBoundary_line T rest _ hT hBn, if_pos hB]
  have h1 : (scanState pipe cl done (B ++ nl :: rest)).end_ >
      (scanState pipe cl done (B ++ nl :: rest)).start := by
    simp [scanState]
  simp only [h1, decide_True, Bool.true_or, if_true, Option.map_none']

/-- Reading more data when the buffer has room and needs no shift: the bytes read are appended
to the buffer. -/
theorem fill_of_room (s : Scanner) (c : Bytes) (cs : List Bytes) (hpipe : s.pipe = c :: cs)
    (hc : c ≠ []) (hstart : s.start ≤ s.cap / 2) (hend : s.end_ < s.cap) :
    s.fill = Step.again
      (if c.length ≤ s.cap - s.end_ then
        { s with buf := s.buf.take s.end_ ++ c ++ s.buf.drop (s.end_ + c.length),
                 end_ := s.end_ + c.length, pipe := cs, empties := 0 }
      else
        { s with buf := s.buf.take s.end_ ++ c.take (s.cap - s.end_) ++
                   s.buf.drop (s.end_ + (c.take (s.cap - s.end_)).length),
                 end_ := s.end_ + (c.take (s.cap - s.end_)).length,
                 pipe := c.drop (s.cap - s.end_) :: cs, empties := 0 }) := by
  have hgt : decide (s.start > s.cap / 2) = false := by
    have h2 : ¬ (s.start > s.cap / 2) := by omega
    simp [h2]
  have hfull : (s.end_ == s.cap) = false := by
    have h1 : ¬ (s.end_ = s.cap) := by omega
    simp [h1]
  have hshift : s.shift = s := by
    unfold Scanner.shift
    simp only [hgt, hfull, Bool.or_false, Bool.and_false, Bool.false_eq_true, if_false]
  have hgrow : s.grow = s := by
    unfold Scanner.grow
    simp only [hfull, Bool.false_eq_true, if_false]
  unfold Scanner.fill
  rw [hshift, hgrow]
  unfold Scanner.read
  simp only [hfull, Bool.false_eq_true, if_false, Bool.false_and, hpipe, readLoop, hc]
  by_cases hroom : c.length ≤ s.cap - s.end_
  · simp only [hroom, if_true]
  · simp only [hroom, if_false]

theorem pass_eq_fill (T : Bytes) (pipe : List Bytes) (cl : Closing) (done : List Bytes)
    (pend : Bytes) (hpend : nl ∉ pend) :
    (scanState pipe cl done pend).pass (onBoundary T) = (scanState pipe cl done pend).fill := by
  have herr : (scanState pipe cl done pend).err = none := rfl
  have hmore : (scanState pipe cl done pend).more = (scanState pipe cl done pend).fill := by
    unfold Scanner.more
    simp only [herr, Option.isSome_none, Bool.false_eq_true, if_false]
  unfold Scanner.pass
  rw [pending_scanState, onBoundary_of_not_mem T _ hpend]
  simp only [herr, Option.isSome_none, Bool.or_false, Bool.false_eq_true, false_and, if_false]
  by_cases hp : pend = []
  · subst hp
    have h1 : ¬ ((scanState pipe cl done []).end_ > (scanState pipe cl done []).start) := by
      simp [scanState]
    simp only [h1, decide_False, Bool.false_eq_true, if_false]
    exact hmore
  · have h1 : (scanState pipe cl done pend).end_ > (scanState pipe cl done pend).start := by
      have : 0 < pend.length := List.length_pos.mpr hp
      simp only [scanState, List.length_append]
      omega
    have h2 : ¬ ((0 : Int) < 0) := by omega
    have h3 : ¬ ((0 : Int) > (((scanState pipe cl done pend).end_ -
        (scanState pipe cl done pend).start : Nat) : Int)) := by omega
    simp only [h1, decide_True, if_true, h2, h3, if_false, Int.toNat_zero, Nat.add_zero]
    exact hmore

theorem write_at_end (a p c : Bytes) :
    List.take (a ++ p).length (a ++ p) ++ c ++ List.drop ((a ++ p).length + c.length) (a ++ p) =
      a ++ (p ++ c) := by
  rw [List.take_length, List.drop_eq_nil_of_le (Nat.le_add_right _ _)]
  simp

/-- A pass over a buffer that holds no complete line reads more of the pipe into the buffer. -/
theorem pass_read (T : Bytes) (c : Bytes) (cs : List Bytes) (cl : Closing) (done : List Bytes)
    (pend : Bytes) (hpend : nl ∉ pend) (hc : c ≠ [])
    (hsz : (terminated done ++ pend).length < startBufSize / 2) :
    (scanState (c :: cs) cl done pend).pass (onBoundary T) =
      Step.again
        (if c.length ≤ startBufSize - (terminated done ++ pend).length then
          scanState cs cl done (pend ++ c)
        else
          scanState (c.drop (startBufSize - (terminated done ++ pend).length) :: cs) cl done
            (pend ++ c.take (startBufSize - (terminated done ++ pend).length))) := by
  have hsb : startBufSize = 4096 := rfl
  rw [hsb] at hsz
  rw [pass_eq_fill T _ cl done pend hpend,
    fill_of_room (scanState (c :: cs) cl done pend) c cs rfl hc
      (by simp only [scanState, hsb, List.length_append] at hsz ⊢; omega)
      (by simp only [scanState, hsb] at hsz ⊢; omega)]
  congr 1
  by_cases hroom : c.length ≤ startBufSize - (terminated done ++ pend).length
  · have hroom2 : c.length ≤ (scanState (c :: cs) cl done pend).cap -
        (scanState (c :: cs) cl done pend).end_ := hroom
    rw [if_pos hroom, if_pos hroom2]
    simp only [scanState, Scanner.mk.injEq, true_and, and_true]
    exact ⟨write_at_end _ _ _, by simp [Nat.add_assoc]⟩
  · have hroom2 : ¬ c.length ≤ (scanState (c :: cs) cl done pend).cap -
        (scanState (c :: cs) cl done pend).end_ := hroom
    rw [if_neg hroom, if_neg hroom2]
    simp only [scanState, Scanner.mk.injEq, true_and, and_true]
    exact ⟨write_at_end _ _ _, by simp [Nat.add_assoc]⟩

theorem resolves_nil : Resolves [] [] := by
  intro tail
  rfl

theorem resolves_snoc (lines : List Slice) (done : List Bytes) (L : Bytes)
    (h : Resolves lines done) :
    Resolves (lines ++ [⟨1, (terminated done).length, L.length⟩]) (done ++ [L]) := by
  intro tail
  have h1 := h (L ++ nl :: tail)
  have e : terminated (done ++ [L]) ++ tail = terminated done ++ (L ++ nl :: tail) := by
    simp [terminated_append, terminated]
  rw [e, List.map_append, h1]
  simp

theorem bytesAt_scanState (pipe : List Bytes) (cl : Closing) (done : List Bytes) (pend : Bytes)
    (lines : List Slice) (h : Resolves lines done) :
    lines.map (scanState pipe cl done pend).bytesAt = done :=
  h pend

theorem pend_short {pend flat B G : Bytes} {todo : List Bytes} (hp : nl ∉ pend)
    (htodo : ∀ L ∈ todo, nl ∉ L)
    (e : pend ++ flat = terminated todo ++ (B ++ nl :: G)) :
    pend.length < (terminated todo ++ (B ++ [nl])).length := by
  cases todo with
  | nil =>
    simp only [terminated, List.nil_append] at e ⊢
    have := length_le_of_no_newline hp e
    simp only [List.length_append, List.length_singleton]
    omega
  | cons L todo =>
    simp only [terminated, List.append_assoc, List.cons_append] at e ⊢
    have := length_le_of_no_newline hp e
    have h1 := htodo L (List.mem_cons_self _ _)
    simp only [List.length_append, List.length_cons]
    omega

theorem scan_safe (T B G : Bytes) (hT : nl ∉ T) (hB : T <+: B) (hBn : nl ∉ B) :
    ∀ (fuel : Nat) (pipe : List Bytes) (cl : Closing) (done todo : List Bytes) (pend : Bytes)
      (lines : List Slice),
      (∀ c ∈ pipe, c ≠ []) →
      (∀ L ∈ todo, nl ∉ L ∧ ¬ T <+: L) →
      pend ++ pipe.flatten = terminated todo ++ (B ++ nl :: G) →
      (terminated done ++ (terminated todo ++ (B ++ [nl]))).length ≤ startBufSize / 2 →
      Resolves lines done →
      2 * pipe.flatten.length + pend.length < fuel →
      ∃ lines' s',
        scanLines (onBoundary T) fuel (scanState pipe cl done pend) lines =
          Run.returned (lines', s') ∧
        s'.Err = none ∧ lines'.map s'.bytesAt = done ++ todo := by
  intro fuel
  induction fuel with
  | zero => intro _ _ _ _ _ _ _ _ _ _ _ hf; omega
  | succ n ih =>
    intro pipe cl done todo pend lines hpipe htodo hflat hsize hres hf
    by_cases hmem : nl ∈ pend
    · obtain ⟨L₀, rest, hL₀, rfl⟩ := exists_line hmem
      have hflat2 : L₀ ++ nl :: (rest ++ pipe.flatten) =
          terminated todo ++ (B ++ nl :: G) := by
        rw [← hflat]; simp
      cases todo with
      | nil =>
        simp only [terminated, List.nil_append] at hflat2
        obtain ⟨rfl, _⟩ := line_unique hL₀ hBn hflat2
        refine ⟨lines, scanState pipe cl done (L₀ ++ nl :: rest), ?_, rfl, ?_⟩
        · unfold scanLines
          rw [pass_final T pipe cl done L₀ rest hT hBn hB]
          simp
        · rw [bytesAt_scanState _ _ _ _ _ hres]
          simp
      | cons L todo =>
        have hL := htodo L (List.mem_cons_self _ _)
        have htodo2 : ∀ M ∈ todo, nl ∉ M ∧ ¬ T <+: M :=
          fun M hM => htodo M (List.mem_cons_of_mem _ hM)
        simp only [terminated, List.append_assoc, List.cons_append] at hflat2
        obtain ⟨rfl, hrest⟩ := line_unique hL₀ hL.1 hflat2
        have hsize2 : (terminated (done ++ [L₀]) ++ (terminated todo ++ (B ++ [nl]))).length ≤
            startBufSize / 2 := by
          have e : terminated (done ++ [L₀]) ++ (terminated todo ++ (B ++ [nl])) =
              terminated done ++ (terminated (L₀ :: todo) ++ (B ++ [nl])) := by
            simp [terminated_append, terminated]
          rw [e]; exact hsize
        have hf2 : 2 * pipe.flatten.length + rest.length < n := by
          simp only [List.length_append, List.length_cons] at hf
          omega
        obtain ⟨lines', s', h1, h2, h3⟩ := ih pipe cl (done ++ [L₀]) todo rest
          (lines ++ [⟨1, (terminated done).length, L₀.length⟩]) hpipe htodo2 hrest hsize2
          (resolves_snoc lines done L₀ hres) hf2
        refine ⟨lines', s', ?_, h2, ?_⟩
        · unfold scanLines
          rw [pass_token T pipe cl done L₀ rest hT hL.1 hL.2]
          exact h1
        · rw [h3]; simp
    · have hshort := pend_short hmem (fun L hL => (htodo L hL).1) hflat
      have hsz : (terminated done ++ pend).length < startBufSize / 2 := by
        simp only [List.length_append] at hsize hshort ⊢
        omega
      cases pipe with
      | nil =>
        exfalso
        apply hmem
        have : nl ∈ terminated todo ++ (B ++ nl :: G) := by simp
        rw [← hflat] at this
        simpa using this
      | cons c cs =>
        have hc : c ≠ [] := hpipe c (List.mem_cons_self _ _)
        have hcs : ∀ d ∈ cs, d ≠ [] := fun d hd => hpipe d (List.mem_cons_of_mem _ hd)
        have hcpos : 0 < c.length := List.length_pos.mpr hc
        have hsb : startBufSize = 4096 := rfl
        by_cases hroom : c.length ≤ startBufSize - (terminated done ++ pend).length
        · have hflat3 : (pend ++ c) ++ cs.flatten = terminated todo ++ (B ++ nl :: G) := by
            rw [← hflat]; simp
          have hf3 : 2 * cs.flatten.length + (pend ++ c).length < n := by
            simp only [List.flatten_cons, List.length_append] at hf ⊢
            omega
          obtain ⟨lines', s', h1, h2, h3⟩ := ih cs cl done todo (pend ++ c) lines hcs htodo
            hflat3 hsize hres hf3
          refine ⟨lines', s', ?_, h2, h3⟩
          unfold scanLines
          rw [pass_read T c cs cl done pend hmem hc hsz, if_pos hroom]
          exact h1
        · have hroompos : 0 < startBufSize - (terminated done ++ pend).length := by
            rw [hsb] at hsz ⊢; omega
          have hpass := pass_read T c cs cl done pend hmem hc hsz
          rw [if_neg hroom] at hpass
          generalize startBufSize - (terminated done ++ pend).length = room at hroom hroompos hpass
          have hdrop : c.drop room ≠ [] := by
            intro e
            have := congrArg List.length e
            simp only [List.length_drop, List.length_nil] at this
            omega
          have hpipe3 : ∀ d ∈ c.drop room :: cs, d ≠ [] := by
            intro d hd
            rcases List.mem_cons.mp hd with h | h
            · rw [h]; exact hdrop
            · exact hcs d h
          have hflat3 : (pend ++ c.take room) ++ (c.drop room :: cs).flatten =
              terminated todo ++ (B ++ nl :: G) := by
            rw [← hflat]
            simp only [List.flatten_cons, List.append_assoc]
            rw [← List.append_assoc (c.take room), List.take_append_drop]
          have hf3 : 2 * (c.drop room :: cs).flatten.length + (pend ++ c.take room).length <
              n := by
            simp only [List.flatten_cons, List.length_append, List.length_drop,
              List.length_take] at hf ⊢
            omega
          obtain ⟨lines', s', h1, h2, h3⟩ := ih _ cl done todo _ lines hpipe3 htodo
            hflat3 hsize hres hf3
          refine ⟨lines', s', ?_, h2, h3⟩
          unfold scanLines
          rw [hpass]
          exact h1

/-- The first pass of a new scanner allocates the first buffer and reads into it. -/
theorem pass_new (split : SplitFunc) (c : Bytes) (cs : List Bytes) (cl : Closing)
    (hc : c ≠ []) :
    (NewScanner ⟨c :: cs, cl⟩).pass split =
      Step.again
        (if c.length ≤ startBufSize then scanState cs cl [] c
        else scanState (c.drop startBufSize :: cs) cl [] (c.take startBufSize)) := by
  by_cases hroom : c.length ≤ startBufSize
  · have hroom2 : c.length ≤ 4096 := hroom
    simp [Scanner.pass, Scanner.more, Scanner.fill, Scanner.shift, Scanner.grow, Scanner.read,
      NewScanner, Scanner.pending, readLoop, hc,
      hroom2, scanState, terminated, maxTokenSize, maxInt, startBufSize]
  · have hroom2 : ¬ c.length ≤ 4096 := hroom
    have hmin : min 4096 c.length = 4096 := by omega
    simp [Scanner.pass, Scanner.more, Scanner.fill, Scanner.shift, Scanner.grow, Scanner.read,
      NewScanner, Scanner.pending, readLoop, hc,
      hroom2, scanState, terminated, maxTokenSize, maxInt, startBufSize, hmin]

/-- The stream reader on a pipe that delivers newline-terminated lines, none starting with the
boundary, and then a boundary line, all within the first half of the scanner's first buffer:
it stores the lines joined by newlines and calls `Done` once. -/
theorem streamReader_lines (T : Bytes) (Ls : List Bytes) (B G : Bytes) (stream : Reader)
    (hT : nl ∉ T) (hL : ∀ L ∈ Ls, nl ∉ L ∧ ¬ T <+: L) (hB : T <+: B) (hBn : nl ∉ B)
    (hchunks : ∀ c ∈ stream.chunks, c ≠ [])
    (hpipe : stream.chunks.flatten = terminated Ls ++ (B ++ nl :: G))
    (hsize : (terminated Ls ++ (B ++ [nl])).length ≤ startBufSize / 2) :
    streamReader stream T = Run.returned ⟨some (Join Ls [nl]), 1, none, none⟩ := by
  obtain ⟨chunks, cl⟩ := stream
  simp only at hchunks hpipe
  cases chunks with
  | nil =>
    exfalso
    have : nl ∈ terminated Ls ++ (B ++ nl :: G) := by simp
    rw [← hpipe] at this
    simp at this
  | cons c cs =>
    have hc : c ≠ [] := hchunks c (List.mem_cons_self _ _)
    have hcs : ∀ d ∈ cs, d ≠ [] := fun d hd => hchunks d (List.mem_cons_of_mem _ hd)
    have hcpos : 0 < c.length := List.length_pos.mpr hc
    have hsb : startBufSize = 4096 := rfl
    have hbudget : passBudget ⟨c :: cs, cl⟩ =
        (2 * (c :: cs).flatten.length + (c :: cs).length + 3) + 1 := rfl
    have key : ∃ lines' s',
        scanLines (onBoundary T) (passBudget ⟨c :: cs, cl⟩) (NewScanner ⟨c :: cs, cl⟩) [] =
          Run.returned (lines', s') ∧ s'.Err = none ∧ lines'.map s'.bytesAt = [] ++ Ls := by
      rw [hbudget]
      unfold scanLines
      rw [pass_new (onBoundary T) c cs cl hc]
      by_cases hroom : c.length ≤ startBufSize
      · rw [if_pos hroom]
        apply scan_safe T B G hT hB hBn _ cs cl [] Ls c [] hcs hL
        · rw [← hpipe]; simp
        · simpa [terminated] using hsize
        · exact resolves_nil
        · simp only [List.flatten_cons, List.length_append, List.length_cons]
          omega
      · rw [if_neg hroom]
        have hdrop : c.drop startBufSize ≠ [] := by
          intro e
          have := congrArg List.length e
          simp only [List.length_drop, List.length_nil] at this
          omega
        apply scan_safe T B G hT hB hBn _ (c.drop startBufSize :: cs) cl [] Ls
          (c.take startBufSize) []
        · intro d hd
          rcases List.mem_cons.mp hd with h | h
          · rw [h]; exact hdrop
          · exact hcs d h
        · exact hL
        · rw [← hpipe]
          simp only [List.flatten_cons]
          rw [← List.append_assoc, List.take_append_drop]
        · simpa [terminated] using hsize
        · exact resolves_nil
        · simp only [List.flatten_cons, List.length_append, List.length_cons, List.length_drop,
            List.length_take]
          omega
    obtain ⟨lines', s', h1, h2, h3⟩ := key
    unfold streamReader
    rw [h1]
    simp only [h2, h3, List.nil_append]

theorem crlfLines_eq (Ls : List Bytes) :
    crlfLines Ls = terminated (Ls.map (· ++ [cr])) := by
  have hnew : newline = [cr, nl] := by decide
  induction Ls with
  | nil => rfl
  | cons L Ls ih => simp [crlfLines, terminated, ih, hnew]

theorem join_eq_dropLast_terminated (ls : List Bytes) (h : ls ≠ []) :
    Join ls [nl] = (terminated ls).dropLast := by
  have key : ∀ ls : List Bytes, ls ≠ [] → Join ls [nl] ++ [nl] = terminated ls := by
    intro ls
    induction ls with
    | nil => intro h; exact absurd rfl h
    | cons a t ih =>
      intro _
      cases t with
      | nil => simp [Join, List.intercalate, terminated]
      | cons b t =>
        have := ih (List.cons_ne_nil b t)
        simp only [Join, List.intercalate, List.intersperse, List.flatten_cons,
          List.append_assoc, terminated] at this ⊢
        rw [this]
        simp
  rw [← key ls h, List.dropLast_concat]

/-- C3, as stated, fails: when the pipe carries `hello` CR LF and then the boundary line,
`streamReader` stores `hello` CR, which is not the content with CRLF replaced by LF (`hello` LF);
and with that stdout and a stderr that carries only its boundary line, `Execute` returns
stdout `hello` CR, not `hello`. -/
theorem C3_counterexample :
    streamReader
        ⟨[lit "hello\r\n" ++ (createBoundary (letters 65) ++ lit "\r\n")], Closing.blocks⟩
        (createBoundary (letters 65)) =
      Run.returned ⟨some (lit "hello\r"), 1, none, none⟩ ∧
    crlfToLf (lit "hello\r\n") = lit "hello\n" ∧
    lit "hello\r" ≠ crlfToLf (lit "hello\r\n") ∧
    (Execute ⟨some 1, some 2, some 3, some 4, [], []⟩
        ⟨letters 65, letters 66, none,
          ⟨[lit "hello\r\n" ++ (createBoundary (letters 65) ++ lit "\r\n")], Closing.blocks⟩,
          ⟨[createBoundary (letters 66) ++ lit "\r\n"], Closing.blocks⟩⟩
        (lit "echo hello")).outcome = Run.returned ⟨lit "hello\r", [], none⟩ ∧
    lit "hello\r" ≠ lit "hello" := by
  decide

/-- C3, amended: for every pipe content of the form `P` followed by a CRLF-terminated boundary
line, where `P` is a sequence of CRLF-terminated lines none of which starts with the boundary
token, and `P` with the boundary line fits in the first half of the scanner's first buffer
(2048 bytes), the text `streamReader` stores in its destination is the lines of `P`, each still
ending in its CR, joined with `"\n"`: that is `P` without its final LF; and when stdout carries
such content and stderr carries only its boundary line, `Execute` returns that text as stdout,
an empty stderr and a nil error. -/
theorem C3_reader_keeps_carriage_returns (T : Bytes) (Ls : List Bytes) (B G : Bytes)
    (stream : Reader) (hT : nl ∉ T) (hL : ∀ L ∈ Ls, nl ∉ L ∧ ¬ T <+: L ++ [cr])
    (hB : T <+: B) (hBn : nl ∉ B) (hchunks : ∀ c ∈ stream.chunks, c ≠ [])
    (hpipe : stream.chunks.flatten = crlfLines Ls ++ (B ++ newline ++ G))
    (hsize : (crlfLines Ls ++ (B ++ newline)).length ≤ startBufSize / 2) :
    streamReader stream T =
      Run.returned ⟨some (Join (Ls.map (· ++ [cr])) [nl]), 1, none, none⟩ ∧
    (Ls ≠ [] → Join (Ls.map (· ++ [cr])) [nl] = (crlfLines Ls).dropLast) ∧
    (∀ (s : shell) (env : ExecEnv) (cmd Be Ge : Bytes),
      s.handle ≠ none → s.stdin ≠ none → s.stdout ≠ none → s.stderr ≠ none →
      env.writeErr = none → env.outPipe = stream → createBoundary env.random₁ = T →
      nl ∉ createBoundary env.random₂ → createBoundary env.random₂ <+: Be → nl ∉ Be →
      (∀ c ∈ env.errPipe.chunks, c ≠ []) →
      env.errPipe.chunks.flatten = Be ++ newline ++ Ge →
      (Be ++ newline).length ≤ startBufSize / 2 →
      Execute s env cmd =
        ⟨Run.returned ⟨Join (Ls.map (· ++ [cr])) [nl], [], none⟩, s,
          [fullCommand cmd T (createBoundary env.random₂)], 2⟩) := by
  have hnew : newline = [cr, nl] := by decide
  have hcr : cr ≠ nl := by decide
  have hout : streamReader stream T =
      Run.returned ⟨some (Join (Ls.map (· ++ [cr])) [nl]), 1, none, none⟩ := by
    apply streamReader_lines T (Ls.map (· ++ [cr])) (B ++ [cr]) G stream hT
    · intro M hM
      obtain ⟨L, hLmem, rfl⟩ := List.mem_map.mp hM
      refine ⟨?_, (hL L hLmem).2⟩
      intro h
      rcases List.mem_append.mp h with h1 | h1
      · exact (hL L hLmem).1 h1
      · exact hcr (List.mem_singleton.mp h1).symm
    · exact hB.trans (List.prefix_append _ _)
    · intro h
      rcases List.mem_append.mp h with h1 | h1
      · exact hBn h1
      · exact hcr (List.mem_singleton.mp h1).symm
    · exact hchunks
    · rw [hpipe, crlfLines_eq, hnew]; simp
    · rw [← crlfLines_eq]
      simpa [hnew] using hsize
  refine ⟨hout, ?_, ?_⟩
  · intro hne
    rw [crlfLines_eq]
    exact join_eq_dropLast_terminated _ (by simpa using hne)
  · intro s env cmd Be Ge hh hi ho he hw hop hT₁ hT₂ hBe hBen hce hpe hse
    have herr : streamReader env.errPipe (createBoundary env.random₂) =
        Run.returned ⟨some (Join [] [nl]), 1, none, none⟩ := by
      apply streamReader_lines (createBoundary env.random₂) [] (Be ++ [cr]) Ge env.errPipe hT₂
      · intro M hM; simp at hM
      · exact hBe.trans (List.prefix_append _ _)
      · intro h
        rcases List.mem_append.mp h with h1 | h1
        · exact hBen h1
        · exact hcr (List.mem_singleton.mp h1).symm
      · exact hce
      · rw [hpe, hnew]; simp [terminated]
      · simpa [hnew, terminated] using hse
    obtain ⟨h, hh2⟩ := Option.ne_none_iff_exists'.mp hh
    obtain ⟨i, hi2⟩ := Option.ne_none_iff_exists'.mp hi
    obtain ⟨o, ho2⟩ := Option.ne_none_iff_exists'.mp ho
    obtain ⟨e, he2⟩ := Option.ne_none_iff_exists'.mp he
    unfold Execute
    simp only [hh2, hi2, ho2, he2, hw, hop, hT₁, hout, herr, Option.isSome_some, if_true,
      joinReaders]
    simp [Join, List.intercalate]

theorem C3_reader_keeps_carriage_returns_witness :
    streamReader
        ⟨[lit "hello\r\n", createBoundary (letters 65) ++ lit "\r\n"], Closing.blocks⟩
        (createBoundary (letters 65)) =
      Run.returned ⟨some (lit "hello\r"), 1, none, none⟩ ∧
    Execute ⟨some 1, some 2, some 3, some 4, [], []⟩
        ⟨letters 65, letters 66, none,
          ⟨[lit "hello\r\n", createBoundary (letters 65) ++ lit "\r\n"], Closing.blocks⟩,
          ⟨[createBoundary (letters 66) ++ lit "\r\n"], Closing.blocks⟩⟩
        (lit "echo hello") =
      ⟨Run.returned ⟨lit "hello\r", [], none⟩, ⟨some 1, some 2, some 3, some 4, [], []⟩,
        [fullCommand (lit "echo hello") (createBoundary (letters 65))
          (createBoundary (letters 66))], 2⟩ :=
  ⟨(C3_reader_keeps_carriage_returns (createBoundary (letters 65)) [lit "hello"]
      (createBoundary (letters 65)) []
      ⟨[lit "hello\r\n", createBoundary (letters 65) ++ lit "\r\n"], Closing.blocks⟩
      (by decide) (by decide) (by decide) (by decide) (by decide) (by decide) (by decide)).1,
   (C3_reader_keeps_carriage_returns (createBoundary (letters 65)) [lit "hello"]
      (createBoundary (letters 65)) []
      ⟨[lit "hello\r\n", createBoundary (letters 65) ++ lit "\r\n"], Closing.blocks⟩
      (by decide) (by decide) (by decide) (by decide) (by decide) (by decide)
      (by decide)).2.2
      ⟨some 1, some 2, some 3, some 4, [], []⟩
      ⟨letters 65, letters 66, none,
        ⟨[lit "hello\r\n", createBoundary (letters 65) ++ lit "\r\n"], Closing.blocks⟩,
        ⟨[createBoundary (letters 66) ++ lit "\r\n"], Closing.blocks⟩⟩
      (lit "echo hello") (createBoundary (letters 66)) []
      (by decide) (by decide) (by decide) (by decide) rfl rfl rfl
      (by decide) (by decide) (by decide) (by decide) (by decide) (by decide)⟩

/-! ## Every scan with the split function of `onBoundary` ends within its budget of passes -/

theorem readLoop_spec (room : Nat) (cl : Closing) :
    ∀ (pipe : List Bytes) (loop : Nat) (bytes : Bytes) (err : Option Error)
      (pipe' : List Bytes),
      readLoop room cl loop pipe = some (bytes, err, pipe') →
        bytes.length + pipe'.flatten.length = pipe.flatten.length ∧
        pipe'.length ≤ pipe.length ∧ bytes.length ≤ room ∧
        (err = none → 0 < room → 0 < bytes.length) := by
  intro pipe
  induction pipe with
  | nil =>
    intro loop bytes err pipe' h
    unfold readLoop at h
    cases cl with
    | eof =>
      simp only [Option.some.injEq, Prod.mk.injEq] at h
      obtain ⟨rfl, rfl, rfl⟩ := h
      simp
    | failed e =>
      simp only [Option.some.injEq, Prod.mk.injEq] at h
      obtain ⟨rfl, rfl, rfl⟩ := h
      simp
    | blocks => simp at h
  | cons c cs ih =>
    intro loop bytes err pipe' h
    unfold readLoop at h
    by_cases hc : c = []
    · subst hc
      simp only [if_true] at h
      by_cases hl : loop + 1 > maxConsecutiveEmptyReads
      · simp only [hl, if_true, Option.some.injEq, Prod.mk.injEq] at h
        obtain ⟨rfl, rfl, rfl⟩ := h
        simp
      · simp only [hl, if_false] at h
        have := ih (loop + 1) bytes err pipe' h
        simp only [List.flatten_cons, List.nil_append, List.length_cons]
        refine ⟨this.1, ?_, this.2.2.1, this.2.2.2⟩
        omega
    · simp only [hc, if_false] at h
      have hpos : 0 < c.length := List.length_pos.mpr hc
      by_cases hr : c.length ≤ room
      · simp only [hr, if_true, Option.some.injEq, Prod.mk.injEq] at h
        obtain ⟨rfl, rfl, rfl⟩ := h
        simp only [List.flatten_cons, List.length_append, List.length_cons]
        refine ⟨trivial, by omega, hr, fun _ _ => hpos⟩
      · simp only [hr, if_false, Option.some.injEq, Prod.mk.injEq] at h
        obtain ⟨rfl, rfl, rfl⟩ := h
        simp only [List.flatten_cons, List.length_append, List.length_cons, List.length_take,
          List.length_drop]
        refine ⟨by omega, by omega, by omega, fun _ h0 => by omega⟩

theorem shift_spec (s : Scanner) (h : s.inOrder) :
    s.shift.inOrder ∧ s.shift.end_ - s.shift.start = s.end_ - s.start ∧
    s.shift.pipe = s.pipe ∧ s.shift.err = s.err ∧ s.shift.cap = s.cap ∧
    s.shift.closing = s.closing := by
  obtain ⟨h1, h2⟩ := h
  by_cases hc : (decide (s.start > 0) && (s.end_ == s.cap || decide (s.start > s.cap / 2))) = true
  · unfold Scanner.shift
    rw [if_pos hc]
    refine ⟨⟨?_, ?_⟩, ?_, rfl, rfl, rfl, rfl⟩
    · show 0 ≤ s.end_ - s.start
      omega
    · show s.end_ - s.start ≤ s.cap
      omega
    · show s.end_ - s.start - 0 = s.end_ - s.start
      omega
  · unfold Scanner.shift
    rw [if_neg hc]
    exact ⟨⟨h1, h2⟩, rfl, rfl, rfl, rfl, rfl⟩

theorem grow_spec (s : Scanner) (h : s.inOrder)
    (hfit : ¬ (s.end_ = s.cap ∧ (s.cap ≥ maxTokenSize ∨ s.cap > maxInt / 2))) :
    s.grow.inOrder ∧ s.grow.end_ - s.grow.start = s.end_ - s.start ∧
    s.grow.pipe = s.pipe ∧ s.grow.err = s.err ∧ s.grow.end_ < s.grow.cap ∧
    s.grow.closing = s.closing := by
  obtain ⟨h1, h2⟩ := h
  have hmax : maxTokenSize = 65536 := rfl
  have hsb : startBufSize = 4096 := rfl
  by_cases he : s.end_ = s.cap
  · have hcap : s.cap < 65536 := by
      by_contra hge
      exact hfit ⟨he, Or.inl (by rw [hmax]; omega)⟩
    have hnew : s.end_ - s.start <
        min (if s.cap * 2 = 0 then startBufSize else s.cap * 2) maxTokenSize := by
      rw [hmax, hsb]
      split <;> omega
    have hb : (s.end_ == s.cap) = true := by simp [he]
    unfold Scanner.grow
    rw [if_pos hb]
    refine ⟨⟨?_, ?_⟩, ?_, rfl, rfl, ?_, rfl⟩
    · show 0 ≤ s.end_ - s.start
      omega
    · show s.end_ - s.start ≤
        min (if s.cap * 2 = 0 then startBufSize else s.cap * 2) maxTokenSize
      omega
    · show s.end_ - s.start - 0 = s.end_ - s.start
      omega
    · exact hnew
  · have hb : ¬ ((s.end_ == s.cap) = true) := by simp [he]
    unfold Scanner.grow
    rw [if_neg hb]
    exact ⟨⟨h1, h2⟩, rfl, rfl, rfl, by omega, rfl⟩

theorem toGo_setErr_lt (s t : Scanner) (e : Error) (herr : t.err = none)
    (hp : 2 * t.pipe.flatten.length + t.pipe.length + (t.end_ - t.start) ≤
      2 * s.pipe.flatten.length + s.pipe.length + (s.end_ - s.start))
    (hs : s.err = none) : (t.setErr e).toGo < s.toGo := by
  unfold Scanner.setErr Scanner.toGo
  simp only [herr, true_or, if_true, hs, Option.isSome_some, Option.isSome_none,
    Bool.false_eq_true, if_false]
  omega

theorem read_spec (s : Scanner) (h : s.inOrder) (hroom : s.end_ < s.cap)
    (herr : s.err = none) :
    match s.read with
    | Step.again t => t.inOrder ∧ t.toGo < s.toGo
    | Step.token _ _ => False
    | _ => True := by
  unfold Scanner.read
  obtain ⟨h1, h2⟩ := h
  cases hr : readLoop (s.cap - s.end_) s.closing 0 s.pipe with
  | none => simp
  | some res =>
    obtain ⟨bytes, err, pipe'⟩ := res
    obtain ⟨e1, e2, e3, e4⟩ := readLoop_spec _ _ _ _ _ _ _ hr
    cases err with
    | some e =>
      simp only
      refine ⟨?_, ?_⟩
      · unfold Scanner.setErr
        simp only [herr, true_or, if_true]
        exact ⟨by show s.start ≤ s.end_ + bytes.length; omega,
          by show s.end_ + bytes.length ≤ s.cap; omega⟩
      · refine toGo_setErr_lt s _ e ?_ ?_ herr
        · exact herr
        · show 2 * pipe'.flatten.length + pipe'.length + (s.end_ + bytes.length - s.start) ≤ _
          omega
    | none =>
      simp only
      have hb := e4 rfl (by omega)
      refine ⟨⟨by show s.start ≤ s.end_ + bytes.length; omega,
        by show s.end_ + bytes.length ≤ s.cap; omega⟩, ?_⟩
      unfold Scanner.toGo
      simp only [herr, Option.isSome_none, Bool.false_eq_true, if_false]
      show 2 * pipe'.flatten.length + pipe'.length + (s.end_ + bytes.length - s.start) + 1 < _
      omega

theorem advances_mono (s s' : Scanner) (st : Step) (h : st.advances s') (hle : s'.toGo ≤ s.toGo) :
    st.advances s := by
  cases st with
  | token t tok => exact ⟨h.1, Nat.lt_of_lt_of_le h.2 hle⟩
  | again t => exact ⟨h.1, Nat.lt_of_lt_of_le h.2 hle⟩
  | stop t tok => trivial
  | blocked => trivial
  | panicked => trivial

theorem fill_advances (s : Scanner) (h : s.inOrder) (herr : s.err = none) :
    s.fill.advances s := by
  obtain ⟨a1, a2, a3, a4, a5, a6⟩ := shift_spec s h
  unfold Scanner.fill
  by_cases hfull : (s.shift.end_ == s.shift.cap &&
      (decide (s.shift.cap ≥ maxTokenSize) || decide (s.shift.cap > maxInt / 2))) = true
  · rw [if_pos hfull]
    trivial
  · rw [if_neg hfull]
    have hfit : ¬ (s.shift.end_ = s.shift.cap ∧
        (s.shift.cap ≥ maxTokenSize ∨ s.shift.cap > maxInt / 2)) := by
      intro hc
      apply hfull
      simp only [Bool.and_eq_true, beq_iff_eq, Bool.or_eq_true, decide_eq_true_eq]
      exact hc
    obtain ⟨b1, b2, b3, b4, b5, b6⟩ := grow_spec s.shift a1 hfit
    have hr := read_spec s.shift.grow b1 b5 (by rw [b4, a4]; exact herr)
    have hgo : s.shift.grow.toGo = s.toGo := by
      unfold Scanner.toGo
      rw [b2, b3, b4, a2, a3, a4]
    cases hs : s.shift.grow.read with
    | token t tok => rw [hs] at hr; exact absurd hr id
    | again t =>
      rw [hs] at hr
      exact ⟨hr.1, by rw [← hgo]; exact hr.2⟩
    | stop t tok => trivial
    | blocked => trivial
    | panicked => trivial

theorem more_advances (s : Scanner) (h : s.inOrder) : s.more.advances s := by
  unfold Scanner.more
  cases herr : s.err with
  | some e => simp only [Option.isSome_some, if_true]; trivial
  | none =>
    simp only [Option.isSome_none, Bool.false_eq_true, if_false]
    exact fill_advances s h herr

theorem pass_advances (T : Bytes) (s : Scanner) (h : s.inOrder) :
    (s.pass (onBoundary T)).advances s := by
  obtain ⟨h1, h2⟩ := h
  unfold Scanner.pass
  by_cases hcond : (decide (s.end_ > s.start) || s.err.isSome) = true
  · rw [if_pos hcond]
    simp only
    cases hre : (onBoundary T s.pending s.err.isSome).err with
    | some e =>
      simp only
      split <;> trivial
    | none =>
      simp only
      by_cases hneg : (onBoundary T s.pending s.err.isSome).advance < 0
      · rw [if_pos hneg]; trivial
      · rw [if_neg hneg]
        by_cases hfar : (onBoundary T s.pending s.err.isSome).advance >
            ((s.end_ - s.start : Nat) : Int)
        · rw [if_pos hfar]; trivial
        · rw [if_neg hfar]
          cases hrt : (onBoundary T s.pending s.err.isSome).token with
          | none =>
            simp only
            have hin : s.start + (onBoundary T s.pending s.err.isSome).advance.toNat ≤
                s.end_ := by omega
            refine advances_mono s
              { s with start := s.start + (onBoundary T s.pending s.err.isSome).advance.toNat }
              _ (more_advances _ ⟨hin, h2⟩) ?_
            unfold Scanner.toGo
            simp only
            omega
          | some t =>
            simp only
            have hadv := (onBoundary_token T s.pending s.err.isSome t hrt).2.2.2
            have hin : s.start + (onBoundary T s.pending s.err.isSome).advance.toNat ≤
                s.end_ := by omega
            have hlt : s.end_ - (s.start + (onBoundary T s.pending s.err.isSome).advance.toNat) <
                s.end_ - s.start := by omega
            split
            · refine ⟨⟨hin, h2⟩, ?_⟩
              unfold Scanner.toGo
              simp only
              omega
            · split
              · trivial
              · refine ⟨⟨hin, h2⟩, ?_⟩
                unfold Scanner.toGo
                simp only
                omega
  · rw [if_neg hcond]
    exact more_advances s ⟨h1, h2⟩

theorem scanLines_finishes (T : Bytes) :
    ∀ (fuel : Nat) (s : Scanner) (lines : List Slice), s.inOrder → s.toGo < fuel →
      scanLines (onBoundary T) fuel s lines ≠ Run.unfinished := by
  intro fuel
  induction fuel with
  | zero => intro s lines _ hf; omega
  | succ n ih =>
    intro s lines h hf
    have hp := pass_advances T s h
    unfold scanLines
    cases hs : s.pass (onBoundary T) with
    | token t tok =>
      rw [hs] at hp
      exact ih t _ hp.1 (by have := hp.2; omega)
    | again t =>
      rw [hs] at hp
      exact ih t _ hp.1 (by have := hp.2; omega)
    | stop t tok => simp
    | blocked => simp
    | panicked => simp

/-- The stream reader never runs out of passes: whatever the pipe does and whatever the
boundary is, a call returns, blocks on a read or panics. -/
theorem streamReader_finishes (stream : Reader) (T : Bytes) :
    streamReader stream T ≠ Run.unfinished := by
  have h := scanLines_finishes T (passBudget stream) (NewScanner stream) []
    ⟨Nat.le_refl _, Nat.le_refl _⟩
    (by
      unfold Scanner.toGo passBudget NewScanner
      simp only [Option.isSome_none, Bool.false_eq_true, if_false]
      omega)
  unfold streamReader
  cases hs : scanLines (onBoundary T) (passBudget stream) (NewScanner stream) [] with
  | returned r =>
    obtain ⟨lines, sc⟩ := r
    simp only
    cases sc.Err <;> simp
  | blocked => simp
  | panicked => simp
  | unfinished => exact absurd hs h

/-- A call of `streamReader` that returns has called `Done` once if it returns no error, and not
at all if it returns an error; it stores a string exactly when it calls `Done`. -/
theorem streamReader_done (stream : Reader) (T : Bytes) (r : ReaderExit)
    (h : streamReader stream T = Run.returned r) :
    (r.err = none → r.done = 1 ∧ r.buffer.isSome) ∧
    (r.err ≠ none → r.done = 0 ∧ r.buffer = none ∧ r.logged = r.err) := by
  unfold streamReader at h
  cases hs : scanLines (onBoundary T) (passBudget stream) (NewScanner stream) [] with
  | returned res =>
    obtain ⟨lines, sc⟩ := res
    rw [hs] at h
    simp only at h
    cases he : sc.Err with
    | some e =>
      rw [he] at h
      simp only [Run.returned.injEq] at h
      subst h
      simp
    | none =>
      rw [he] at h
      simp only [Run.returned.injEq] at h
      subst h
      simp
  | blocked => rw [hs] at h; simp at h
  | panicked => rw [hs] at h; simp at h
  | unfinished => rw [hs] at h; simp at h

/-! ## The boundary line of a token of `createBoundary` (C8) -/

theorem createBoundary_no_newline (CreateRandomString : Nat → Bytes)
    (halnum : ∀ b ∈ CreateRandomString 12, isAlnum b = true) :
    nl ∉ createBoundary CreateRandomString := by
  unfold createBoundary
  intro hmem
  simp only [List.mem_append] at hmem
  rcases hmem with (h | h) | h
  · revert h; decide
  · have := halnum nl h
    revert this; decide
  · revert h; decide

/-- C8: for every boundary token `T` that `createBoundary` makes (the only boundaries
`onBoundary` is given; the random-string collaborator returning alphanumeric characters) and
every buffer that contains a newline byte, the split function of `onBoundary(T)` returns
`ErrFinalToken` with advance 0 and no token if and only if the buffer's first line, taken up to
and including its newline, starts with `T`; otherwise it emits exactly the bytes before the
first newline and advances to one past that newline. -/
theorem C8_boundary_line_iff (CreateRandomString : Nat → Bytes) (data : Bytes) (atEOF : Bool)
    (halnum : ∀ b ∈ CreateRandomString 12, isAlnum b = true) (hd : nl ∈ data) :
    (onBoundary (createBoundary CreateRandomString) data atEOF =
        ⟨0, none, some Error.ErrFinalToken⟩ ↔
      createBoundary CreateRandomString <+: firstLine data) ∧
    (¬ createBoundary CreateRandomString <+: firstLine data →
      onBoundary (createBoundary CreateRandomString) data atEOF =
        ⟨(data.indexOf nl : Int) + 1, some (data.take (data.indexOf nl)), none⟩) :=
  onBoundary_first_line_iff (createBoundary CreateRandomString) data atEOF
    (not_mem_dropLast (createBoundary_no_newline CreateRandomString halnum)) hd

theorem C8_boundary_line_iff_witness :
    (onBoundary (createBoundary (letters 65))
        (createBoundary (letters 65) ++ lit "\r\nleft over\n") false =
        ⟨0, none, some Error.ErrFinalToken⟩ ↔
      createBoundary (letters 65) <+:
        firstLine (createBoundary (letters 65) ++ lit "\r\nleft over\n")) ∧
    (¬ createBoundary (letters 65) <+:
        firstLine (createBoundary (letters 65) ++ lit "\r\nleft over\n") →
      onBoundary (createBoundary (letters 65))
          (createBoundary (letters 65) ++ lit "\r\nleft over\n") false =
        ⟨((createBoundary (letters 65) ++ lit "\r\nleft over\n").indexOf nl : Int) + 1,
          some ((createBoundary (letters 65) ++ lit "\r\nleft over\n").take
            ((createBoundary (letters 65) ++ lit "\r\nleft over\n").indexOf nl)), none⟩) :=
  C8_boundary_line_iff (letters 65) (createBoundary (letters 65) ++ lit "\r\nleft over\n")
    false (by decide) (by decide)

/-! ## Chunking of the pipe into reads (C9) -/

/-- While the lines and the boundary line fit in the first half of the scanner's first buffer,
what `streamReader` stores does not depend on how the pipe's bytes are chunked into reads. -/
theorem streamReader_chunking_small (T : Bytes) (Ls : List Bytes) (B G : Bytes)
    (r₁ r₂ : Reader) (hT : nl ∉ T) (hL : ∀ L ∈ Ls, nl ∉ L ∧ ¬ T <+: L) (hB : T <+: B)
    (hBn : nl ∉ B) (h₁ : ∀ c ∈ r₁.chunks, c ≠ []) (h₂ : ∀ c ∈ r₂.chunks, c ≠ [])
    (hp₁ : r₁.chunks.flatten = terminated Ls ++ (B ++ nl :: G))
    (hp₂ : r₂.chunks.flatten = terminated Ls ++ (B ++ nl :: G))
    (hsize : (terminated Ls ++ (B ++ [nl])).length ≤ startBufSize / 2) :
    streamReader r₁ T = streamReader r₂ T := by
  rw [streamReader_lines T Ls B G r₁ hT hL hB hBn h₁ hp₁ hsize,
    streamReader_lines T Ls B G r₂ hT hL hB hBn h₂ hp₂ hsize]

/-- C9 fails on the code.  The single calls are as the claim says: once the buffer holds a
newline byte, the split function returns the same on `d ++ e` as on `d`.  But the lines that
`streamReader` collects do depend on how the pipe's bytes are chunked into reads: the same
bytes, a line of 2047 letters `a` ended by CR LF and then the boundary line, are stored as that
line when they arrive in one read, and as the boundary line followed by 2024 letters `a` when
the boundary line arrives in a second read, which overwrites the buffer the collected slice
points into. -/
theorem C9_stored_lines_depend_on_chunking :
    (∀ (T d e : Bytes) (a b : Bool), nl ∉ T → nl ∈ d →
      onBoundary T (d ++ e) a = onBoundary T d b) ∧
    [List.replicate 2047 97 ++ lit "\r\n" ++ (createBoundary (letters 65) ++ lit "\r\n")].flatten =
      [List.replicate 2047 97 ++ lit "\r\n", createBoundary (letters 65) ++ lit "\r\n"].flatten ∧
    streamReader
        ⟨[List.replicate 2047 97 ++ lit "\r\n" ++ (createBoundary (letters 65) ++ lit "\r\n")],
          Closing.blocks⟩ (createBoundary (letters 65)) =
      Run.returned ⟨some (List.replicate 2047 97 ++ lit "\r"), 1, none, none⟩ ∧
    streamReader
        ⟨[List.replicate 2047 97 ++ lit "\r\n", createBoundary (letters 65) ++ lit "\r\n"],
          Closing.blocks⟩ (createBoundary (letters 65)) =
      Run.returned ⟨some (createBoundary (letters 65) ++ lit "\r\n" ++
        List.replicate 2024 97 ++ lit "\r"), 1, none, none⟩ ∧
    List.replicate 2047 97 ++ lit "\r" ≠
      createBoundary (letters 65) ++ lit "\r\n" ++ List.replicate 2024 97 ++ lit "\r" := by
  refine ⟨fun T d e a b hT hd => onBoundary_append T d e a b hT hd, ?_, ?_, ?_, ?_⟩
  · decide!
  · decide!
  · decide!
  · decide!

end Powershell
